import Mathlib

/-!
Verification development for the analyzable-css-modules repository.

The repository's core is a dependency-graph loader for CSS-module files:
given a file it extracts the exported class tokens, follows `@import` and
`composes: x from 'specifier'` references recursively (with per-run caching
and cycle detection), and returns a deterministic merged list of tokens
together with the set of files the result depends on.

The loader implementation itself is not part of the source snapshot; its
behaviour is pinned by the in-repo test-suites (`src/unnamed/part_001`,
`src/src/transformer/less-transformer.test.ts`) and by the specification.
The model below follows the specification's algorithm (section 4.4),
adjusted where the in-repo tests pin a different behaviour (token merging:
the tests show that a composed token is added to the result as its own
entry, and that tokens of `@import`-ed files are merged by name).
`uniqueBy` and `getRelativePath` are embedded directly from the sources
(`src/packages/happy-css-modules/src/util.ts`, `src/src/emitter/index.ts`).
-/

namespace Acm

/-- A source location: `{file, start:{line,col}, end:{line,col}}`.
Files are identified by canonical identity, modelled as `Nat`. -/
structure Loc where
  file : Nat
  startLine : Nat
  startColumn : Nat
  endLine : Nat
  endColumn : Nat
deriving DecidableEq, Repr

/-- The source of a `composes:` declaration: the current file (`composes: a`)
or another file (`composes: a from 'specifier'`). -/
inductive ComposesSource where
  | localSource
  | fromFile (specifier : String)
deriving DecidableEq, Repr

/-- A parsed composition declaration: the listed token names in written
order, and where they come from. -/
structure ComposesRef where
  tokenNames : List String
  source : ComposesSource
deriving DecidableEq, Repr

/-- The outcome of reading, transforming and extracting one file, as the
loader consumes it: `@import` specifiers in document order, local token
occurrences (name and location) in document order, composition references
in document order, and the dependencies that were already pre-bundled by
the transformer. -/
structure FileData where
  imps : List String
  localTokens : List (String × Loc)
  composesRefs : List ComposesRef
  preBundledDependencies : List Nat
deriving DecidableEq, Repr

/-- What the specifier resolver reports for one specifier: a resolved file
identity, the "ignored" sentinel (e.g. http/https specifiers), or failure. -/
inductive ResolveResult where
  | resolved (target : Nat)
  | ignored
  | unresolved
deriving DecidableEq, Repr

/-- The world the loader runs against: the file system (already composed
with the transformer and extractor) and the specifier resolver. -/
structure Env where
  files : List (Nat × FileData)
  resolve : String → Nat → ResolveResult

/-- An exported token of a file together with every source location that
contributed to its identity. -/
structure Token where
  name : String
  originalLocations : List Loc
deriving DecidableEq, Repr

/-- The result of loading one file: the ordered token list and the set of
files the result depends on (modelled as a deduplicated list). -/
structure LoadResult where
  tokens : List Token
  dependencies : List Nat
deriving DecidableEq, Repr

/-- The loader's typed errors. `fuelExhausted` is not one of the program's
errors: it is the sentinel of the fuel-indexed model, and the development
proves it is never reached from a top-level call. -/
inductive LoadError where
  | notFound (file : Nat)
  | unresolvedImport (specifier : String) (referrer : Nat)
  | unresolvedComposesTarget (specifier : String) (referrer : Nat)
  | cyclicComposition (file : Nat) (chain : List Nat)
  | fuelExhausted
deriving DecidableEq, Repr

/-- The per-run memoization cache: completed results keyed by file identity. -/
abbrev Cache := List (Nat × LoadResult)

/-- Association-list lookup keyed by file identity. -/
def assocFind {α : Type} : List (Nat × α) → Nat → Option α
  | [], _ => none
  | (k, v) :: rest, key => if k = key then some v else assocFind rest key

/-- Embeds `uniqueBy` from `src/packages/happy-css-modules/src/util.ts`,
with the `keys` set made explicit: keep the first element for each key. -/
def uniqueByAux {α β : Type} [DecidableEq β] (fn : α → β) : List α → List β → List α
  | [], _ => []
  | el :: rest, keys =>
    if fn el ∈ keys then uniqueByAux fn rest keys
    else el :: uniqueByAux fn rest (fn el :: keys)

/-- Embeds `uniqueBy` from `src/packages/happy-css-modules/src/util.ts`. -/
def uniqueBy {α β : Type} [DecidableEq β] (arr : List α) (fn : α → β) : List α :=
  uniqueByAux fn arr []

/-- Whether a token named `name` is already in the accumulated token list. -/
def hasToken (acc : List Token) (name : String) : Bool :=
  acc.any (fun t => t.name == name)

/-- Merge one named batch of locations into the accumulated token list:
append the locations to an existing token of that name, or append a fresh
token at the end (the tests' "normalizes tokens" behaviour). -/
def addLocations (acc : List Token) (name : String) (locs : List Loc) : List Token :=
  if hasToken acc name then
    acc.map (fun t =>
      if t.name == name then { t with originalLocations := t.originalLocations ++ locs } else t)
  else acc ++ [{ name := name, originalLocations := locs }]

/-- Merge every token of a loaded file into the accumulator, in that
file's token order (used for `@import`-ed files). -/
def mergeTokens (acc : List Token) (ts : List Token) : List Token :=
  ts.foldl (fun a t => addLocations a t.name t.originalLocations) acc

/-- Merge the local token occurrences (document order) into the accumulator. -/
def addLocalTokens (acc : List Token) (locals : List (String × Loc)) : List Token :=
  locals.foldl (fun a p => addLocations a p.1 [p.2]) acc

/-- For each listed name of a `composes ... from` declaration (written
order), copy the matching token of the resolved file's result into the
accumulator; a name the resolved file does not export is silently skipped. -/
def applyComposedNames (acc : List Token) (rg : LoadResult) : List String → List Token
  | [] => acc
  | n :: rest =>
    match rg.tokens.find? (fun t => t.name == n) with
    | some t => applyComposedNames (addLocations acc n t.originalLocations) rg rest
    | none => applyComposedNames acc rg rest

/-- Deduplicate a token's locations by `(file,start,end)` keeping
first-seen order, via `uniqueBy`. -/
def dedupLocations (t : Token) : Token :=
  { t with originalLocations := uniqueBy t.originalLocations id }

/-- Assemble the final `LoadResult` (spec section 4.4 steps 8 and 9):
deduplicate each token's locations, and aggregate the dependency set as
pre-bundled dependencies plus every gathered target dependency, minus the
file itself, deduplicated. -/
def finalize (file : Nat) (pre : List Nat) (acc : List Token) (deps : List Nat) : LoadResult :=
  { tokens := acc.map dedupLocations,
    dependencies := uniqueBy ((pre ++ deps).filter (fun d => d != file)) id }

/-- One unit of per-file work, in document order: an `@import` specifier, a
local token occurrence, or a composition reference. -/
inductive WorkItem where
  | impItem (specifier : String)
  | locItem (name : String) (loc : Loc)
  | compItem (ref : ComposesRef)
deriving DecidableEq, Repr

/-- The document-order work list of one file: `@import`s, then local
tokens, then composition references. -/
def fileWorkItems (fd : FileData) : List WorkItem :=
  fd.imps.map WorkItem.impItem
    ++ fd.localTokens.map (fun p => WorkItem.locItem p.1 p.2)
    ++ fd.composesRefs.map WorkItem.compItem

/-- Modelled from the spec: the loader's per-file reference walk (spec
section 4.4 steps 7 and 8); the loader implementation is absent from the
source snapshot. Processes the work items in document order, threading the
accumulated token list, gathered dependencies, the list of files whose
content was read (the I/O probe), and the shared cache. `loadF` is the
recursive entry of the loader. An unresolvable specifier fails the whole
walk; an "ignored" specifier is skipped as an empty, dependency-free file. -/
def loadItems (env : Env)
    (loadF : Cache → List Nat → Nat → Except LoadError (LoadResult × Cache × List Nat))
    (file : Nat) (chain : List Nat) :
    List WorkItem → List Token → List Nat → List Nat → Cache →
    Except LoadError (List Token × List Nat × List Nat × Cache)
  | [], acc, deps, reads, cache => .ok (acc, deps, reads, cache)
  | .locItem n loc :: rest, acc, deps, reads, cache =>
    loadItems env loadF file chain rest (addLocations acc n [loc]) deps reads cache
  | .impItem s :: rest, acc, deps, reads, cache =>
    match env.resolve s file with
    | .ignored => loadItems env loadF file chain rest acc deps reads cache
    | .unresolved => .error (.unresolvedImport s file)
    | .resolved g =>
      match loadF cache chain g with
      | .error e => .error e
      | .ok (rg, cache', reads') =>
        loadItems env loadF file chain rest (mergeTokens acc rg.tokens)
          (deps ++ g :: rg.dependencies) (reads ++ reads') cache'
  | .compItem ref :: rest, acc, deps, reads, cache =>
    match ref.source with
    | .localSource => loadItems env loadF file chain rest acc deps reads cache
    | .fromFile s =>
      match env.resolve s file with
      | .unresolved => .error (.unresolvedComposesTarget s file)
      | .ignored => loadItems env loadF file chain rest acc deps reads cache
      | .resolved g =>
        match loadF cache chain g with
        | .error e => .error e
        | .ok (rg, cache', reads') =>
          loadItems env loadF file chain rest (applyComposedNames acc rg ref.tokenNames)
            (deps ++ g :: rg.dependencies) (reads ++ reads') cache'

/-- Modelled from the spec: the loader's recursive entry (spec section 4.4;
the loader implementation is absent from the source snapshot). Consult the
cache; detect a cycle by membership of the file in the current call chain,
before recursing; read the file (recorded in the read probe), walk its
references, store the result in the cache and return it. The `Nat` fuel
only indexes the model's recursion; top-level calls supply enough fuel. -/
def loadAux (env : Env) : Nat → Cache → List Nat → Nat →
    Except LoadError (LoadResult × Cache × List Nat)
  | 0, _, _, _ => .error .fuelExhausted
  | fuel + 1, cache, chain, file =>
    match assocFind cache file with
    | some r => .ok (r, cache, [])
    | none =>
      if file ∈ chain then .error (.cyclicComposition file chain)
      else
        match assocFind env.files file with
        | none => .error (.notFound file)
        | some fd =>
          match loadItems env (loadAux env fuel) file (file :: chain) (fileWorkItems fd) [] [] [] cache with
          | .error e => .error e
          | .ok (acc, deps, reads, cache') =>
            let result := finalize file fd.preBundledDependencies acc deps
            .ok (result, (file, result) :: cache', file :: reads)

/-- Fuel that always suffices for a top-level call: one more than the
number of files in the environment. -/
def loadFuel (env : Env) : Nat := env.files.length + 1

/-- A top-level `load` call against a given cache state: empty call chain,
sufficient fuel. Returns the result, the updated cache, and the `readFile`
probe (the files whose content was read, in order). -/
def loadWith (env : Env) (cache : Cache) (file : Nat) :
    Except LoadError (LoadResult × Cache × List Nat) :=
  loadAux env (loadFuel env) cache [] file

/-- Modelled from the spec: `Loader#load` on a fresh cache (the loader
implementation is absent from the source snapshot). -/
def load (env : Env) (file : Nat) : Except LoadError LoadResult :=
  (loadWith env [] file).map (fun x => x.1)

/-! Concrete environments mirroring the in-repo test fixtures. -/

/-- Location of `.a` in file 1 of the composes fixture (line 1, col 1-2). -/
def locA1 : Loc := ⟨1, 1, 1, 1, 2⟩

/-- Location of `.b` in file 2 of the composes fixture (line 1, col 1-2). -/
def locB2 : Loc := ⟨2, 1, 1, 1, 2⟩

/-- File 1 of the spec's composes example: `.a { composes: b from './2.css'; }`. -/
def fdC1a : FileData := ⟨[], [("a", locA1)], [⟨["b"], .fromFile "./2.css"⟩], []⟩

/-- File 2 of the spec's composes example: `.b {}`. -/
def fdC1b : FileData := ⟨[], [("b", locB2)], [], []⟩

/-- The spec's composes example environment (section 8; also the fixture of
the test `tracks other files when composes is present`). -/
def envC1 : Env :=
  ⟨[(1, fdC1a), (2, fdC1b)],
   fun s f => if f == 1 && s == "./2.css" then .resolved 2 else .unresolved⟩

/-- What the model returns for the spec's composes example. -/
def resC1 : LoadResult :=
  ⟨[⟨"a", [locA1]⟩, ⟨"b", [locB2]⟩], [2]⟩

/-- The fixture of the test `normalizes tokens`: file 1 has duplicate
imports of file 2, duplicate composes of `c` from file 3, a composes of
`b` from file 2, and a duplicated local class `.a`. -/
def envNorm : Env :=
  ⟨[(1, ⟨["./2.css", "2.css"],
         [("a", ⟨1, 4, 1, 4, 2⟩), ("a", ⟨1, 12, 1, 12, 2⟩)],
         [⟨["c"], .fromFile "./3.css"⟩, ⟨["c"], .fromFile "3.css"⟩,
          ⟨["c", "c"], .fromFile "./3.css"⟩, ⟨["b"], .fromFile "./2.css"⟩],
         []⟩),
    (2, ⟨[], [("a", ⟨2, 1, 1, 1, 2⟩), ("b", ⟨2, 2, 1, 2, 2⟩)], [], []⟩),
    (3, ⟨[], [("c", ⟨3, 1, 1, 1, 2⟩)], [], []⟩)],
   fun s f =>
     if f == 1 && (s == "./2.css" || s == "2.css") then .resolved 2
     else if f == 1 && (s == "./3.css" || s == "3.css") then .resolved 3
     else .unresolved⟩

/-- The snapshot of the test `normalizes tokens`. -/
def resNorm : LoadResult :=
  ⟨[⟨"a", [⟨2, 1, 1, 1, 2⟩, ⟨1, 4, 1, 4, 2⟩, ⟨1, 12, 1, 12, 2⟩]⟩,
    ⟨"b", [⟨2, 2, 1, 2, 2⟩]⟩,
    ⟨"c", [⟨3, 1, 1, 1, 2⟩]⟩],
   [2, 3]⟩

/-- The resolved reference targets named by a work-item list. -/
def itemTargets (env : Env) (file : Nat) : List WorkItem → List Nat
  | [] => []
  | .locItem _ _ :: rest => itemTargets env file rest
  | .impItem s :: rest =>
    match env.resolve s file with
    | .resolved g => g :: itemTargets env file rest
    | _ => itemTargets env file rest
  | .compItem ref :: rest =>
    match ref.source with
    | .localSource => itemTargets env file rest
    | .fromFile s =>
      match env.resolve s file with
      | .resolved g => g :: itemTargets env file rest
      | _ => itemTargets env file rest

/-- The resolved reference targets (import and composition edges) of a
file. -/
def edgeTargets (env : Env) (file : Nat) : List Nat :=
  match assocFind env.files file with
  | none => []
  | some fd => itemTargets env file (fileWorkItems fd)

/-- Reachability along resolved reference edges of the composition graph. -/
inductive Reaches (env : Env) : Nat → Nat → Prop
  | refl (f : Nat) : Reaches env f f
  | step {f g h : Nat} : g ∈ edgeTargets env f → Reaches env g h → Reaches env f h

/-- The Token invariant of a final result: pairwise-distinct token names,
and each token's location list non-empty and free of duplicate
`(file,start,end)` entries. -/
def ResultInv (r : LoadResult) : Prop :=
  (r.tokens.map Token.name).Nodup ∧
  ∀ t ∈ r.tokens, t.originalLocations ≠ [] ∧ t.originalLocations.Nodup

/-- The invariant of the in-progress token accumulator: distinct names and
non-empty (not yet deduplicated) location lists. -/
def AccInv (acc : List Token) : Prop :=
  (acc.map Token.name).Nodup ∧ ∀ t ∈ acc, t.originalLocations ≠ []

/-- Every completed cache entry satisfies the Token invariant. -/
def CacheInv (c : Cache) : Prop :=
  ∀ g r, assocFind c g = some r → ResultInv r

/-- File 1 of the pre-bundled-dependency fixture (the less-transformer
test): the transformer inlined files 2, 3 and 4 and reported them as
pre-bundled dependencies; nothing is left for the loader to follow. -/
def fdLess : FileData := ⟨[], [], [], [2, 3, 4]⟩

/-- The pre-bundled-dependency fixture environment. -/
def envLess : Env := ⟨[(1, fdLess)], fun _ _ => .unresolved⟩

/-- The cache-free reference walk: the denotation of one file's work list
when every recursive load is replayed from scratch (no cache, no read
probe). Used as the canonical semantics against which the cached loader is
proved deterministic. -/
def pureItems (env : Env) (loadF : Nat → Except LoadError LoadResult) (file : Nat) :
    List WorkItem → List Token → List Nat →
    Except LoadError (List Token × List Nat)
  | [], acc, deps => .ok (acc, deps)
  | .locItem n loc :: rest, acc, deps =>
    pureItems env loadF file rest (addLocations acc n [loc]) deps
  | .impItem s :: rest, acc, deps =>
    match env.resolve s file with
    | .ignored => pureItems env loadF file rest acc deps
    | .unresolved => .error (.unresolvedImport s file)
    | .resolved g =>
      match loadF g with
      | .error e => .error e
      | .ok rg =>
        pureItems env loadF file rest (mergeTokens acc rg.tokens) (deps ++ g :: rg.dependencies)
  | .compItem ref :: rest, acc, deps =>
    match ref.source with
    | .localSource => pureItems env loadF file rest acc deps
    | .fromFile s =>
      match env.resolve s file with
      | .unresolved => .error (.unresolvedComposesTarget s file)
      | .ignored => pureItems env loadF file rest acc deps
      | .resolved g =>
        match loadF g with
        | .error e => .error e
        | .ok rg =>
          pureItems env loadF file rest (applyComposedNames acc rg ref.tokenNames)
            (deps ++ g :: rg.dependencies)

/-- The cache-free loader: same algorithm as `loadAux` with the
memoization removed. Its successful results are the canonical denotation
of a file under the environment. -/
def pureLoad (env : Env) : Nat → List Nat → Nat → Except LoadError LoadResult
  | 0, _, _ => .error .fuelExhausted
  | fuel + 1, chain, file =>
    if file ∈ chain then .error (.cyclicComposition file chain)
    else
      match assocFind env.files file with
      | none => .error (.notFound file)
      | some fd =>
        match pureItems env (pureLoad env fuel (file :: chain)) file (fileWorkItems fd) [] [] with
        | .error e => .error e
        | .ok (acc, deps) => .ok (finalize file fd.preBundledDependencies acc deps)

/-- A cache is sound when every entry is the canonical (cache-free) result
of its file, at every sufficient fuel. -/
def PSound (env : Env) (c : Cache) : Prop :=
  ∀ g r, assocFind c g = some r → ∃ fl0, ∀ fl, fl0 ≤ fl → pureLoad env fl [] g = .ok r

/-- One work item's reference resolves (or needs no resolution). -/
def ItemResolves (env : Env) (file : Nat) : WorkItem → Prop
  | .impItem s => env.resolve s file ≠ .unresolved
  | .locItem _ _ => True
  | .compItem ref =>
    match ref.source with
    | .localSource => True
    | .fromFile s => env.resolve s file ≠ .unresolved

/-- A file exists and every specifier it references resolves. -/
def ResolvesAll (env : Env) (file : Nat) : Prop :=
  (assocFind env.files file).isSome = true ∧
  ∀ fd, assocFind env.files file = some fd →
    ∀ item ∈ fileWorkItems fd, ItemResolves env file item

/-- A cycle of resolved reference edges is reachable from `f`. -/
def CycleFrom (env : Env) (f : Nat) : Prop :=
  ∃ x g, Reaches env f x ∧ g ∈ edgeTargets env x ∧ Reaches env g x

/-- No cycle is reachable from any file completed in the cache. -/
def CacheAcyclic (env : Env) (c : Cache) : Prop :=
  ∀ g r, assocFind c g = some r → ¬ CycleFrom env g

/-- A direct composition cycle: file 1 composes from file 2 and file 2
composes from file 1. -/
def envCycle : Env :=
  ⟨[(1, ⟨[], [("a", ⟨1, 1, 1, 1, 2⟩)], [⟨["b"], .fromFile "./2.css"⟩], []⟩),
    (2, ⟨[], [("b", ⟨2, 1, 1, 1, 2⟩)], [⟨["a"], .fromFile "./1.css"⟩], []⟩)],
   fun s f =>
     if f == 1 && s == "./2.css" then .resolved 2
     else if f == 2 && s == "./1.css" then .resolved 1
     else .unresolved⟩

/-- A three-file composition chain: file 1 composes `b` from file 2, which
composes `c` from file 3. -/
def envChain : Env :=
  ⟨[(1, ⟨[], [("a", ⟨1, 1, 1, 1, 2⟩)], [⟨["b"], .fromFile "./2.css"⟩], []⟩),
    (2, ⟨[], [("b", ⟨2, 1, 1, 1, 2⟩)], [⟨["c"], .fromFile "./3.css"⟩], []⟩),
    (3, ⟨[], [("c", ⟨3, 1, 1, 1, 2⟩)], [], []⟩)],
   fun s f =>
     if f == 1 && s == "./2.css" then .resolved 2
     else if f == 2 && s == "./3.css" then .resolved 3
     else .unresolved⟩

/-- Fixture of the test `throws error the composition of non-existent
file`: file 1 is `.a { composes: a from './2.css'; }` and nothing
resolves. -/
def envMissFile : Env :=
  ⟨[(1, ⟨[], [("a", ⟨1, 1, 1, 1, 2⟩)], [⟨["a"], .fromFile "./2.css"⟩], []⟩)],
   fun _ _ => .unresolved⟩

/-- Fixture of the test `ignores the composition of non-existent tokens`:
file 1 is `.a { composes: b c from './2.css'; }`, file 2 is `.b {}`. -/
def envMissTok : Env :=
  ⟨[(1, ⟨[], [("a", ⟨1, 1, 1, 1, 2⟩)], [⟨["b", "c"], .fromFile "./2.css"⟩], []⟩),
    (2, ⟨[], [("b", ⟨2, 1, 1, 1, 2⟩)], [], []⟩)],
   fun s f => if f == 1 && s == "./2.css" then .resolved 2 else .unresolved⟩

/-- File 1 of the test `ignores http(s) protocol file`: only two remote
imports. -/
def fdHttp : FileData :=
  ⟨["http://example.com/path/1.css", "https://example.com/path/1.css"], [], [], []⟩

/-- Fixture of the test `ignores http(s) protocol file`. -/
def envHttp : Env :=
  ⟨[(1, fdHttp)],
   fun s _ =>
     if s == "http://example.com/path/1.css" || s == "https://example.com/path/1.css" then
       .ignored
     else .unresolved⟩

/-! The `ResolverFileManager.loadFile` override of the less transformer
(`src/unnamed/part_000`, lines 15-26). -/

/-- The `Less.FileLoadResult` shape returned by `loadFile`. -/
structure FileLoadResult where
  contents : String
  filename : String
deriving DecidableEq, Repr

/-- Embeds `ResolverFileManager.loadFile` from `src/unnamed/part_000`:
an ignored (http/https) specifier short-circuits to an empty file without
touching the resolver or the base file manager; otherwise the specifier is
resolved and the base `loadFile` performs the read. The second component
records the I/O operations performed, in order. -/
def loadFile (isIgnoredSpecifier : String → Bool)
    (resolverFn : String → String → String)
    (superLoadFile : String → String → FileLoadResult × List String)
    (filename currentDirectory : String) : FileLoadResult × List String :=
  if isIgnoredSpecifier filename then ({ contents := "", filename := filename }, [])
  else
    let resolved := resolverFn filename currentDirectory
    let r := superLoadFile resolved currentDirectory
    (r.1, ("resolve:" ++ filename) :: r.2)

/-! The `getRelativePath` helper of the emitter (`src/src/emitter/index.ts`,
lines 9-16), with Node's POSIX `path.dirname` / `path.relative` modelled on
segment lists. -/

/-- JavaScript's `String.prototype.startsWith`, on the character list. -/
def charsStartWith : List Char → List Char → Bool
  | _, [] => true
  | [], _ :: _ => false
  | c :: cs, d :: ds => c == d && charsStartWith cs ds

/-- JavaScript's `String.prototype.startsWith`. -/
def jsStartsWith (s p : String) : Bool := charsStartWith s.data p.data

/-- Split a character list at `/` boundaries, accumulating the current
segment in reverse. -/
def splitPathAux : List Char → List Char → List String
  | [], cur => [String.mk cur.reverse]
  | c :: cs, cur =>
    if c = '/' then String.mk cur.reverse :: splitPathAux cs []
    else splitPathAux cs (c :: cur)

/-- Split an absolute POSIX path into its non-empty segments. -/
def splitPath (s : String) : List String :=
  (splitPathAux s.data []).filter (fun x => x != "")

/-- Join path segments with `/`. -/
def joinSegments : List String → String
  | [] => ""
  | [p] => p
  | p :: rest => p ++ "/" ++ joinSegments rest

/-- Node's POSIX `path.dirname` on an absolute path. -/
def dirname (s : String) : String := "/" ++ joinSegments (splitPath s).dropLast

/-- Drop the shared leading segments of two segment lists. -/
def dropShared : List String → List String → List String × List String
  | a :: restA, b :: restB =>
    if a = b then dropShared restA restB else (a :: restA, b :: restB)
  | segsA, segsB => (segsA, segsB)

/-- Node's POSIX `path.relative` on absolute paths: one `..` for each
remaining `from` segment, then the remaining `to` segments. -/
def relative (fromPath toPath : String) : String :=
  joinSegments
    (List.replicate (dropShared (splitPath fromPath) (splitPath toPath)).1.length ".."
      ++ (dropShared (splitPath fromPath) (splitPath toPath)).2)

/-- Embeds `getRelativePath` from `src/src/emitter/index.ts`: the path of
`toFilePath` relative to `fromFilePath`'s directory, prefixed with `./`
unless it already starts with `..`. -/
def getRelativePath (fromFilePath toFilePath : String) : String :=
  if jsStartsWith (relative (dirname fromFilePath) toFilePath) ".." then
    relative (dirname fromFilePath) toFilePath
  else "./" ++ relative (dirname fromFilePath) toFilePath

end Acm

namespace Acm

example : load envC1 1 = .ok resC1 := rfl

example : load envNorm 1 = .ok resNorm := rfl

/-! Unfolding equations for the loader model. -/

theorem loadAux_succ (env : Env) (fuel : Nat) (cache : Cache) (chain : List Nat) (file : Nat) :
    loadAux env (fuel + 1) cache chain file =
      match assocFind cache file with
      | some r => .ok (r, cache, [])
      | none =>
        if file ∈ chain then .error (.cyclicComposition file chain)
        else
          match assocFind env.files file with
          | none => .error (.notFound file)
          | some fd =>
            match loadItems env (loadAux env fuel) file (file :: chain)
                (fileWorkItems fd) [] [] [] cache with
            | .error e => .error e
            | .ok (acc, deps, reads, cache') =>
              .ok (finalize file fd.preBundledDependencies acc deps,
                (file, finalize file fd.preBundledDependencies acc deps) :: cache',
                file :: reads) :=
  rfl

theorem loadItems_loc (env : Env) (loadF : Cache → List Nat → Nat →
      Except LoadError (LoadResult × Cache × List Nat))
    (file : Nat) (chain : List Nat) (n : String) (loc : Loc) (rest : List WorkItem)
    (acc : List Token) (deps reads : List Nat) (cache : Cache) :
    loadItems env loadF file chain (.locItem n loc :: rest) acc deps reads cache =
      loadItems env loadF file chain rest (addLocations acc n [loc]) deps reads cache :=
  rfl

theorem loadItems_imp (env : Env) (loadF : Cache → List Nat → Nat →
      Except LoadError (LoadResult × Cache × List Nat))
    (file : Nat) (chain : List Nat) (s : String) (rest : List WorkItem)
    (acc : List Token) (deps reads : List Nat) (cache : Cache) :
    loadItems env loadF file chain (.impItem s :: rest) acc deps reads cache =
      (match env.resolve s file with
      | .ignored => loadItems env loadF file chain rest acc deps reads cache
      | .unresolved => .error (.unresolvedImport s file)
      | .resolved g =>
        match loadF cache chain g with
        | .error e => .error e
        | .ok (rg, cache', reads') =>
          loadItems env loadF file chain rest (mergeTokens acc rg.tokens)
            (deps ++ g :: rg.dependencies) (reads ++ reads') cache') :=
  rfl

theorem loadItems_comp (env : Env) (loadF : Cache → List Nat → Nat →
      Except LoadError (LoadResult × Cache × List Nat))
    (file : Nat) (chain : List Nat) (ref : ComposesRef) (rest : List WorkItem)
    (acc : List Token) (deps reads : List Nat) (cache : Cache) :
    loadItems env loadF file chain (.compItem ref :: rest) acc deps reads cache =
      (match ref.source with
      | .localSource => loadItems env loadF file chain rest acc deps reads cache
      | .fromFile s =>
        match env.resolve s file with
        | .unresolved => .error (.unresolvedComposesTarget s file)
        | .ignored => loadItems env loadF file chain rest acc deps reads cache
        | .resolved g =>
          match loadF cache chain g with
          | .error e => .error e
          | .ok (rg, cache', reads') =>
            loadItems env loadF file chain rest (applyComposedNames acc rg ref.tokenNames)
              (deps ++ g :: rg.dependencies) (reads ++ reads') cache') := by
  cases ref with
  | mk tokenNames source => cases source <;> rfl

theorem loadItems_skip_ignored (env : Env) (loadF : Cache → List Nat → Nat →
      Except LoadError (LoadResult × Cache × List Nat))
    (file : Nat) (chain : List Nat) (imps : List String) (rest : List WorkItem)
    (acc : List Token) (deps reads : List Nat) (cache : Cache)
    (h : ∀ s ∈ imps, env.resolve s file = .ignored) :
    loadItems env loadF file chain (imps.map WorkItem.impItem ++ rest) acc deps reads cache =
      loadItems env loadF file chain rest acc deps reads cache := by
  induction imps with
  | nil => rfl
  | cons s ss ih =>
    simp only [List.map_cons, List.cons_append]
    rw [loadItems_imp, h s (List.mem_cons_self s ss)]
    exact ih fun x hx => h x (List.mem_cons_of_mem s hx)

theorem loadItems_locals (env : Env) (loadF : Cache → List Nat → Nat →
      Except LoadError (LoadResult × Cache × List Nat))
    (file : Nat) (chain : List Nat) (locals : List (String × Loc)) (rest : List WorkItem)
    (acc : List Token) (deps reads : List Nat) (cache : Cache) :
    loadItems env loadF file chain
        (locals.map (fun p => WorkItem.locItem p.1 p.2) ++ rest) acc deps reads cache =
      loadItems env loadF file chain rest (addLocalTokens acc locals) deps reads cache := by
  induction locals generalizing acc with
  | nil => rfl
  | cons p ps ih =>
    simp only [List.map_cons, List.cons_append]
    rw [loadItems_loc, ih]
    rfl

/-! Token-name structure lemmas. -/

theorem hasToken_iff (acc : List Token) (n : String) :
    hasToken acc n = true ↔ n ∈ acc.map Token.name := by
  simp only [hasToken, List.any_eq_true, beq_iff_eq, List.mem_map]

theorem mem_names_addLocations (acc : List Token) (n : String) (ls : List Loc) (m : String) :
    m ∈ (addLocations acc n ls).map Token.name ↔ m ∈ acc.map Token.name ∨ m = n := by
  unfold addLocations
  cases h : hasToken acc n
  · simp only [Bool.false_eq_true, if_false, List.map_append, List.mem_append,
      List.map_cons, List.map_nil, List.mem_singleton]
  · rw [if_pos rfl]
    have hnames : (acc.map fun t =>
        if t.name == n then { t with originalLocations := t.originalLocations ++ ls }
        else t).map Token.name = acc.map Token.name := by
      rw [List.map_map]
      apply List.map_congr_left
      intro t _
      by_cases hc : t.name == n
      · simp [Function.comp, hc]
      · simp [Function.comp, hc]
    rw [hnames]
    constructor
    · exact Or.inl
    · rintro (hm | rfl)
      · exact hm
      · exact (hasToken_iff acc m).mp h

theorem mem_names_addLocalTokens (acc : List Token) (locals : List (String × Loc)) (m : String) :
    m ∈ (addLocalTokens acc locals).map Token.name ↔
      m ∈ acc.map Token.name ∨ m ∈ locals.map Prod.fst := by
  induction locals generalizing acc with
  | nil => simp [addLocalTokens]
  | cons p ps ih =>
    show m ∈ (addLocalTokens (addLocations acc p.1 [p.2]) ps).map Token.name ↔ _
    rw [ih, mem_names_addLocations]
    simp only [List.map_cons, List.mem_cons]
    tauto

theorem applyComposedNames_cons (acc : List Token) (rg : LoadResult)
    (n : String) (rest : List String) :
    applyComposedNames acc rg (n :: rest) =
      match rg.tokens.find? (fun t => t.name == n) with
      | some t => applyComposedNames (addLocations acc n t.originalLocations) rg rest
      | none => applyComposedNames acc rg rest :=
  rfl

theorem mem_names_applyComposedNames (acc : List Token) (rg : LoadResult)
    (ns : List String) (m : String) :
    m ∈ (applyComposedNames acc rg ns).map Token.name ↔
      m ∈ acc.map Token.name ∨ (m ∈ ns ∧ m ∈ rg.tokens.map Token.name) := by
  induction ns generalizing acc with
  | nil => simp [applyComposedNames]
  | cons n rest ih =>
    rw [applyComposedNames_cons]
    cases hf : rg.tokens.find? (fun t => t.name == n) with
    | none =>
      dsimp only
      rw [ih]
      have hnone : n ∉ rg.tokens.map Token.name := by
        rw [List.find?_eq_none] at hf
        intro hmem
        obtain ⟨t, ht, hteq⟩ := List.mem_map.mp hmem
        exact hf t ht (by simp [hteq])
      simp only [List.mem_cons]
      constructor
      · rintro (hm | ⟨h1, h2⟩)
        · exact Or.inl hm
        · exact Or.inr ⟨Or.inr h1, h2⟩
      · rintro (hm | ⟨h1 | h1, h2⟩)
        · exact Or.inl hm
        · exact absurd (h1 ▸ h2) hnone
        · exact Or.inr ⟨h1, h2⟩
    | some t =>
      dsimp only
      have htmem : t ∈ rg.tokens := List.mem_of_find?_eq_some hf
      have htname : t.name = n := by
        have := List.find?_some hf
        simpa using this
      have hnmem : n ∈ rg.tokens.map Token.name :=
        List.mem_map.mpr ⟨t, htmem, htname⟩
      rw [ih, mem_names_addLocations]
      simp only [List.mem_cons]
      constructor
      · rintro (⟨hm | rfl⟩ | ⟨h1, h2⟩)
        · exact Or.inl hm
        · exact Or.inr ⟨Or.inl rfl, hnmem⟩
        · exact Or.inr ⟨Or.inr h1, h2⟩
      · rintro (hm | ⟨h1 | h1, h2⟩)
        · exact Or.inl (Or.inl hm)
        · exact Or.inl (Or.inr h1)
        · exact Or.inr ⟨h1, h2⟩

theorem name_dedupLocations (t : Token) : (dedupLocations t).name = t.name := rfl

theorem names_finalize (file : Nat) (pre : List Nat) (acc : List Token) (deps : List Nat) :
    (finalize file pre acc deps).tokens.map Token.name = acc.map Token.name := by
  simp only [finalize, List.map_map]
  apply List.map_congr_left
  intro t _
  rfl

/-! Entry-step lemmas for `loadAux`. -/

theorem load_eq (env : Env) (file : Nat) :
    load env file = (loadAux env (env.files.length + 1) [] [] file).map (fun x => x.1) :=
  rfl

theorem loadWith_eq (env : Env) (cache : Cache) (file : Nat) :
    loadWith env cache file = loadAux env (env.files.length + 1) cache [] file :=
  rfl

theorem loadItems_nil (env : Env) (loadF : Cache → List Nat → Nat →
      Except LoadError (LoadResult × Cache × List Nat))
    (file : Nat) (chain : List Nat)
    (acc : List Token) (deps reads : List Nat) (cache : Cache) :
    loadItems env loadF file chain [] acc deps reads cache = .ok (acc, deps, reads, cache) :=
  rfl

theorem assocFind_cons_self {α : Type} (k : Nat) (v : α) (rest : List (Nat × α)) :
    assocFind ((k, v) :: rest) k = some v := by
  unfold assocFind
  rw [if_pos rfl]

theorem assocFind_cons_ne {α : Type} (k : Nat) (v : α) (rest : List (Nat × α)) (key : Nat)
    (h : k ≠ key) : assocFind ((k, v) :: rest) key = assocFind rest key := by
  show (if k = key then some v else assocFind rest key) = assocFind rest key
  rw [if_neg h]

theorem loadAux_hit (env : Env) (fuel : Nat) (cache : Cache) (chain : List Nat)
    (file : Nat) (r : LoadResult) (hc : assocFind cache file = some r) :
    loadAux env (fuel + 1) cache chain file = .ok (r, cache, []) := by
  rw [loadAux_succ, hc]

theorem loadAux_cyc (env : Env) (fuel : Nat) (cache : Cache) (chain : List Nat)
    (file : Nat) (hc : assocFind cache file = none) (hch : file ∈ chain) :
    loadAux env (fuel + 1) cache chain file = .error (.cyclicComposition file chain) := by
  rw [loadAux_succ, hc]
  dsimp only
  rw [if_pos hch]

theorem loadAux_notFound (env : Env) (fuel : Nat) (cache : Cache) (chain : List Nat)
    (file : Nat) (hc : assocFind cache file = none) (hch : file ∉ chain)
    (hfd : assocFind env.files file = none) :
    loadAux env (fuel + 1) cache chain file = .error (.notFound file) := by
  rw [loadAux_succ, hc]
  dsimp only
  rw [if_neg hch, hfd]

theorem loadAux_enter (env : Env) (fuel : Nat) (cache : Cache) (chain : List Nat)
    (file : Nat) (fd : FileData) (hc : assocFind cache file = none) (hch : file ∉ chain)
    (hfd : assocFind env.files file = some fd) :
    loadAux env (fuel + 1) cache chain file =
      match loadItems env (loadAux env fuel) file (file :: chain)
          (fileWorkItems fd) [] [] [] cache with
      | .error e => .error e
      | .ok (acc, deps, reads, cache') =>
        .ok (finalize file fd.preBundledDependencies acc deps,
          (file, finalize file fd.preBundledDependencies acc deps) :: cache',
          file :: reads) := by
  rw [loadAux_succ, hc]
  dsimp only
  rw [if_neg hch, hfd]

/-- C1, counterexample: on the spec's own example (file 1 is
`.a { composes: b from './2.css'; }`, file 2 is `.b {}`), the load — as
pinned by the in-repo test `tracks other files when composes is present` —
returns token `a` with only its own location and token `b` as a separate
entry; token `a`'s locations are not `[location of b, location of a]` as
the claim states. -/
theorem c1_counterexample :
    load envC1 1 = .ok resC1 ∧
    ∀ t ∈ resC1.tokens, t.name = "a" → t.originalLocations ≠ [locB2, locA1] :=
  ⟨rfl, by decide⟩

/-- C1, amended: for file 1 `.a { composes: b from './2.css'; }` and file 2
`.b {}`, load(file 1) returns tokens `[a with [location of a in file 1],
b with [location of b in file 2]]` — the referenced token appears as its
own token entry rather than having its locations prepended into `a` — and
dependencies `{file 2}`. -/
theorem c1_amended :
    load envC1 1 = .ok ⟨[⟨"a", [locA1]⟩, ⟨"b", [locB2]⟩], [2]⟩ :=
  rfl

/-! Reads performed by a load never mention a file of the call chain. -/

theorem loadItems_reads_chain (env : Env)
    (loadF : Cache → List Nat → Nat → Except LoadError (LoadResult × Cache × List Nat))
    (file : Nat) (chain : List Nat) (x : Nat)
    (hF : ∀ cache g r c' rd, loadF cache chain g = .ok (r, c', rd) → x ∉ rd) :
    ∀ (items : List WorkItem) (acc : List Token) (deps reads : List Nat) (cache : Cache)
      (A : List Token) (D RD : List Nat) (C' : Cache),
      x ∉ reads →
      loadItems env loadF file chain items acc deps reads cache = .ok (A, D, RD, C') →
      x ∉ RD := by
  intro items
  induction items with
  | nil =>
    intro acc deps reads cache A D RD C' hx h
    rw [loadItems_nil] at h
    simp only [Except.ok.injEq, Prod.mk.injEq] at h
    obtain ⟨-, -, rfl, -⟩ := h
    exact hx
  | cons item rest ih =>
    intro acc deps reads cache A D RD C' hx h
    cases item with
    | locItem n loc =>
      rw [loadItems_loc] at h
      exact ih _ _ _ _ _ _ _ _ hx h
    | impItem s =>
      rw [loadItems_imp] at h
      cases hres : env.resolve s file with
      | ignored => rw [hres] at h; exact ih _ _ _ _ _ _ _ _ hx h
      | unresolved => rw [hres] at h; exact absurd h (by simp)
      | resolved g =>
        rw [hres] at h
        dsimp only at h
        cases hg : loadF cache chain g with
        | error e => rw [hg] at h; exact absurd h (by simp)
        | ok y =>
          obtain ⟨rg, cache2, rds2⟩ := y
          rw [hg] at h
          dsimp only at h
          refine ih _ _ _ _ _ _ _ _ ?_ h
          simp only [List.mem_append, not_or]
          exact ⟨hx, hF cache g rg cache2 rds2 hg⟩
    | compItem ref =>
      rw [loadItems_comp] at h
      cases href : ref.source with
      | localSource => rw [href] at h; exact ih _ _ _ _ _ _ _ _ hx h
      | fromFile s =>
        rw [href] at h
        dsimp only at h
        cases hres : env.resolve s file with
        | unresolved => rw [hres] at h; exact absurd h (by simp)
        | ignored => rw [hres] at h; exact ih _ _ _ _ _ _ _ _ hx h
        | resolved g =>
          rw [hres] at h
          dsimp only at h
          cases hg : loadF cache chain g with
          | error e => rw [hg] at h; exact absurd h (by simp)
          | ok y =>
            obtain ⟨rg, cache2, rds2⟩ := y
            rw [hg] at h
            dsimp only at h
            refine ih _ _ _ _ _ _ _ _ ?_ h
            simp only [List.mem_append, not_or]
            exact ⟨hx, hF cache g rg cache2 rds2 hg⟩

theorem loadAux_reads_chain (env : Env) :
    ∀ (fuel : Nat) (cache : Cache) (chain : List Nat) (g : Nat) (r : LoadResult)
      (c' : Cache) (rd : List Nat),
      loadAux env fuel cache chain g = .ok (r, c', rd) →
      ∀ x ∈ chain, x ∉ rd := by
  intro fuel
  induction fuel with
  | zero =>
    intro cache chain g r c' rd h
    exact absurd h (by simp [loadAux])
  | succ fuel ih =>
    intro cache chain g r c' rd h x hx
    cases hc : assocFind cache g with
    | some r0 =>
      rw [loadAux_hit env fuel cache chain g r0 hc] at h
      simp only [Except.ok.injEq, Prod.mk.injEq] at h
      obtain ⟨-, -, rfl⟩ := h
      simp
    | none =>
      by_cases hmem : g ∈ chain
      · rw [loadAux_cyc env fuel cache chain g hc hmem] at h
        exact absurd h (by simp)
      · cases hfd : assocFind env.files g with
        | none =>
          rw [loadAux_notFound env fuel cache chain g hc hmem hfd] at h
          exact absurd h (by simp)
        | some fd =>
          rw [loadAux_enter env fuel cache chain g fd hc hmem hfd] at h
          cases hli : loadItems env (loadAux env fuel) g (g :: chain)
              (fileWorkItems fd) [] [] [] cache with
          | error e => rw [hli] at h; exact absurd h (by simp)
          | ok y =>
            obtain ⟨acc, deps, rds, cache2⟩ := y
            rw [hli] at h
            dsimp only at h
            simp only [Except.ok.injEq, Prod.mk.injEq] at h
            obtain ⟨-, -, rfl⟩ := h
            have hxg : x ≠ g := fun hxe => hmem (hxe ▸ hx)
            have hRD : x ∉ rds := by
              refine loadItems_reads_chain env (loadAux env fuel) g (g :: chain) x
                ?_ (fileWorkItems fd) [] [] [] cache acc deps rds cache2 (by simp) hli
              intro cache3 g3 r3 c3 rd3 h3
              exact ih cache3 (g :: chain) g3 r3 c3 rd3 h3 x (List.mem_cons_of_mem g hx)
            simp only [List.mem_cons, not_or]
            exact ⟨hxg, hRD⟩

/-! Reachability along resolved edges, and membership in `uniqueBy`. -/

theorem itemTargets_loc (env : Env) (file : Nat) (n : String) (loc : Loc)
    (rest : List WorkItem) :
    itemTargets env file (.locItem n loc :: rest) = itemTargets env file rest :=
  rfl

theorem itemTargets_imp (env : Env) (file : Nat) (s : String) (rest : List WorkItem) :
    itemTargets env file (.impItem s :: rest) =
      (match env.resolve s file with
      | .resolved g => g :: itemTargets env file rest
      | _ => itemTargets env file rest) :=
  rfl

theorem itemTargets_comp (env : Env) (file : Nat) (ref : ComposesRef) (rest : List WorkItem) :
    itemTargets env file (.compItem ref :: rest) =
      (match ref.source with
      | .localSource => itemTargets env file rest
      | .fromFile s =>
        match env.resolve s file with
        | .resolved g => g :: itemTargets env file rest
        | _ => itemTargets env file rest) := by
  cases ref with
  | mk tokenNames source => cases source <;> rfl

theorem reaches_trans {env : Env} {a b c : Nat}
    (h1 : Reaches env a b) (h2 : Reaches env b c) : Reaches env a c := by
  induction h1 with
  | refl => exact h2
  | step hg _ ih => exact Reaches.step hg (ih h2)

theorem mem_uniqueByAux_id {α : Type} [DecidableEq α] (l : List α) (keys : List α) (x : α) :
    x ∈ uniqueByAux id l keys ↔ (x ∈ l ∧ x ∉ keys) := by
  induction l generalizing keys with
  | nil => simp [uniqueByAux]
  | cons el rest ih =>
    show x ∈ (if id el ∈ keys then uniqueByAux id rest keys
      else el :: uniqueByAux id rest (id el :: keys)) ↔ _
    by_cases h : id el ∈ keys
    · rw [if_pos h, ih]
      simp only [id] at h
      simp only [List.mem_cons]
      constructor
      · rintro ⟨h1, h2⟩; exact ⟨Or.inr h1, h2⟩
      · rintro ⟨h1 | h1, h2⟩
        · exact absurd (h1 ▸ h) h2
        · exact ⟨h1, h2⟩
    · rw [if_neg h, List.mem_cons, ih]
      simp only [id] at h ⊢
      simp only [List.mem_cons]
      constructor
      · rintro (rfl | ⟨h1, h2⟩)
        · exact ⟨Or.inl rfl, h⟩
        · exact ⟨Or.inr h1, fun hx => h2 (Or.inr hx)⟩
      · rintro ⟨h1 | h1, h2⟩
        · exact Or.inl h1
        · by_cases hx : x = el
          · exact Or.inl hx
          · exact Or.inr ⟨h1, fun hk => (match hk with
              | Or.inl hk => hx hk
              | Or.inr hk => h2 hk)⟩

theorem mem_uniqueBy_id {α : Type} [DecidableEq α] (l : List α) (x : α) :
    x ∈ uniqueBy l id ↔ x ∈ l := by
  rw [uniqueBy, mem_uniqueByAux_id]
  simp

theorem loadItems_reads_reaches (env : Env)
    (loadF : Cache → List Nat → Nat → Except LoadError (LoadResult × Cache × List Nat))
    (file : Nat) (chain : List Nat)
    (hF : ∀ cache g r c' rd, loadF cache chain g = .ok (r, c', rd) →
      ∀ p ∈ rd, Reaches env g p) :
    ∀ (items : List WorkItem),
      (∀ t ∈ itemTargets env file items, t ∈ edgeTargets env file) →
      ∀ (acc : List Token) (deps reads : List Nat) (cache : Cache)
        (A : List Token) (D RD : List Nat) (C' : Cache),
        (∀ p ∈ reads, Reaches env file p) →
        loadItems env loadF file chain items acc deps reads cache = .ok (A, D, RD, C') →
        ∀ p ∈ RD, Reaches env file p := by
  intro items
  induction items with
  | nil =>
    intro _ acc deps reads cache A D RD C' hreads h
    rw [loadItems_nil] at h
    simp only [Except.ok.injEq, Prod.mk.injEq] at h
    obtain ⟨-, -, rfl, -⟩ := h
    exact hreads
  | cons item rest ih =>
    intro hsub acc deps reads cache A D RD C' hreads h
    cases item with
    | locItem n loc =>
      rw [loadItems_loc] at h
      rw [itemTargets_loc] at hsub
      exact ih hsub _ _ _ _ _ _ _ _ hreads h
    | impItem s =>
      rw [loadItems_imp] at h
      rw [itemTargets_imp] at hsub
      cases hres : env.resolve s file with
      | ignored =>
        rw [hres] at h hsub
        exact ih hsub _ _ _ _ _ _ _ _ hreads h
      | unresolved =>
        rw [hres] at h
        exact absurd h (by simp)
      | resolved g =>
        rw [hres] at h hsub
        dsimp only at h hsub
        cases hg : loadF cache chain g with
        | error e => rw [hg] at h; exact absurd h (by simp)
        | ok y =>
          obtain ⟨rg, cache2, rds2⟩ := y
          rw [hg] at h
          dsimp only at h
          refine ih (fun t ht => hsub t (List.mem_cons_of_mem g ht)) _ _ _ _ _ _ _ _ ?_ h
          intro p hp
          rcases List.mem_append.mp hp with hp | hp
          · exact hreads p hp
          · exact Reaches.step (hsub g (List.mem_cons_self g _)) (hF cache g rg cache2 rds2 hg p hp)
    | compItem ref =>
      rw [loadItems_comp] at h
      rw [itemTargets_comp] at hsub
      cases href : ref.source with
      | localSource =>
        rw [href] at h hsub
        exact ih hsub _ _ _ _ _ _ _ _ hreads h
      | fromFile s =>
        rw [href] at h hsub
        dsimp only at h hsub
        cases hres : env.resolve s file with
        | unresolved => rw [hres] at h; exact absurd h (by simp)
        | ignored =>
          rw [hres] at h hsub
          exact ih hsub _ _ _ _ _ _ _ _ hreads h
        | resolved g =>
          rw [hres] at h hsub
          dsimp only at h hsub
          cases hg : loadF cache chain g with
          | error e => rw [hg] at h; exact absurd h (by simp)
          | ok y =>
            obtain ⟨rg, cache2, rds2⟩ := y
            rw [hg] at h
            dsimp only at h
            refine ih (fun t ht => hsub t (List.mem_cons_of_mem g ht)) _ _ _ _ _ _ _ _ ?_ h
            intro p hp
            rcases List.mem_append.mp hp with hp | hp
            · exact hreads p hp
            · exact Reaches.step (hsub g (List.mem_cons_self g _))
                (hF cache g rg cache2 rds2 hg p hp)

theorem loadAux_reads_reaches (env : Env) :
    ∀ (fuel : Nat) (cache : Cache) (chain : List Nat) (g : Nat) (r : LoadResult)
      (c' : Cache) (rd : List Nat),
      loadAux env fuel cache chain g = .ok (r, c', rd) →
      ∀ p ∈ rd, Reaches env g p := by
  intro fuel
  induction fuel with
  | zero =>
    intro cache chain g r c' rd h
    exact absurd h (by simp [loadAux])
  | succ fuel ih =>
    intro cache chain g r c' rd h p hp
    cases hc : assocFind cache g with
    | some r0 =>
      rw [loadAux_hit env fuel cache chain g r0 hc] at h
      simp only [Except.ok.injEq, Prod.mk.injEq] at h
      obtain ⟨-, -, rfl⟩ := h
      simp at hp
    | none =>
      by_cases hmem : g ∈ chain
      · rw [loadAux_cyc env fuel cache chain g hc hmem] at h
        exact absurd h (by simp)
      · cases hfd : assocFind env.files g with
        | none =>
          rw [loadAux_notFound env fuel cache chain g hc hmem hfd] at h
          exact absurd h (by simp)
        | some fd =>
          rw [loadAux_enter env fuel cache chain g fd hc hmem hfd] at h
          cases hli : loadItems env (loadAux env fuel) g (g :: chain)
              (fileWorkItems fd) [] [] [] cache with
          | error e => rw [hli] at h; exact absurd h (by simp)
          | ok y =>
            obtain ⟨acc, deps, rds, cache2⟩ := y
            rw [hli] at h
            dsimp only at h
            simp only [Except.ok.injEq, Prod.mk.injEq] at h
            obtain ⟨-, -, rfl⟩ := h
            rcases List.mem_cons.mp hp with rfl | hp
            · exact Reaches.refl p
            · refine loadItems_reads_reaches env (loadAux env fuel) g (g :: chain)
                (fun cache3 g3 r3 c3 rd3 h3 => ih cache3 (g :: chain) g3 r3 c3 rd3 h3)
                (fileWorkItems fd) ?_ [] [] [] cache acc deps rds cache2 (by simp) hli p hp
              intro t ht
              rw [edgeTargets, hfd]
              exact ht

/-! Invariant preservation lemmas (claim C6). -/

theorem not_hasToken (acc : List Token) (n : String) (h : hasToken acc n = false) :
    n ∉ acc.map Token.name := by
  intro hm
  rw [(hasToken_iff acc n).mpr hm] at h
  simp at h

theorem names_addLocations_of_hasToken (acc : List Token) (n : String) (ls : List Loc)
    (h : hasToken acc n = true) :
    (addLocations acc n ls).map Token.name = acc.map Token.name := by
  unfold addLocations
  rw [if_pos h, List.map_map]
  apply List.map_congr_left
  intro t _
  by_cases hc : t.name == n
  · simp [Function.comp, hc]
  · simp [Function.comp, hc]

theorem accInv_addLocations (acc : List Token) (n : String) (ls : List Loc)
    (hacc : AccInv acc) (hls : ls ≠ []) : AccInv (addLocations acc n ls) := by
  obtain ⟨hnd, hne⟩ := hacc
  cases h : hasToken acc n
  · unfold addLocations
    rw [if_neg (by simp [h])]
    constructor
    · rw [List.map_append, List.nodup_append]
      refine ⟨hnd, by simp, ?_⟩
      intro a ha hb
      simp only [List.map_cons, List.map_nil, List.mem_singleton] at hb
      exact not_hasToken acc n h (hb ▸ ha)
    · intro t ht
      rcases List.mem_append.mp ht with ht | ht
      · exact hne t ht
      · simp only [List.mem_singleton] at ht
        subst ht
        exact hls
  · constructor
    · rw [names_addLocations_of_hasToken acc n ls h]
      exact hnd
    · intro t ht
      unfold addLocations at ht
      rw [if_pos h] at ht
      obtain ⟨t0, ht0, rfl⟩ := List.mem_map.mp ht
      by_cases hc : t0.name == n
      · rw [if_pos hc]
        simp [hne t0 ht0]
      · rw [if_neg hc]
        exact hne t0 ht0

theorem accInv_mergeTokens (acc : List Token) (ts : List Token)
    (hacc : AccInv acc) (hts : ∀ t ∈ ts, t.originalLocations ≠ []) :
    AccInv (mergeTokens acc ts) := by
  induction ts generalizing acc with
  | nil => exact hacc
  | cons t ts ih =>
    show AccInv (mergeTokens (addLocations acc t.name t.originalLocations) ts)
    exact ih _ (accInv_addLocations acc t.name t.originalLocations hacc
        (hts t (List.mem_cons_self t ts)))
      (fun t2 ht2 => hts t2 (List.mem_cons_of_mem t ht2))

theorem accInv_addLocalTokens (acc : List Token) (locals : List (String × Loc))
    (hacc : AccInv acc) : AccInv (addLocalTokens acc locals) := by
  induction locals generalizing acc with
  | nil => exact hacc
  | cons p ps ih =>
    show AccInv (addLocalTokens (addLocations acc p.1 [p.2]) ps)
    exact ih _ (accInv_addLocations acc p.1 [p.2] hacc (by simp))

theorem accInv_applyComposedNames (acc : List Token) (rg : LoadResult) (ns : List String)
    (hacc : AccInv acc) (hrg : ∀ t ∈ rg.tokens, t.originalLocations ≠ []) :
    AccInv (applyComposedNames acc rg ns) := by
  induction ns generalizing acc with
  | nil => exact hacc
  | cons n rest ih =>
    rw [applyComposedNames_cons]
    cases hf : rg.tokens.find? (fun t => t.name == n) with
    | none => exact ih acc hacc
    | some t =>
      exact ih _ (accInv_addLocations acc n t.originalLocations hacc
        (hrg t (List.mem_of_find?_eq_some hf)))

theorem sublist_uniqueByAux_id {α : Type} [DecidableEq α] :
    ∀ (l keys : List α), List.Sublist (uniqueByAux id l keys) l := by
  intro l
  induction l with
  | nil => intro keys; exact List.Sublist.refl []
  | cons el rest ih =>
    intro keys
    show (if id el ∈ keys then uniqueByAux id rest keys
      else el :: uniqueByAux id rest (id el :: keys)).Sublist (el :: rest)
    by_cases h : id el ∈ keys
    · rw [if_pos h]
      exact (ih keys).cons el
    · rw [if_neg h]
      exact (ih (id el :: keys)).cons₂ el

theorem nodup_uniqueByAux_id {α : Type} [DecidableEq α] :
    ∀ (l keys : List α), (uniqueByAux id l keys).Nodup := by
  intro l
  induction l with
  | nil => intro keys; simp [uniqueByAux]
  | cons el rest ih =>
    intro keys
    show (if id el ∈ keys then uniqueByAux id rest keys
      else el :: uniqueByAux id rest (id el :: keys)).Nodup
    by_cases h : id el ∈ keys
    · rw [if_pos h]; exact ih keys
    · rw [if_neg h]
      refine List.Nodup.cons ?_ (ih (id el :: keys))
      intro hmem
      have := (mem_uniqueByAux_id rest (id el :: keys) el).mp hmem
      exact this.2 (List.mem_cons_self _ _)

theorem uniqueBy_id_sublist {α : Type} [DecidableEq α] (l : List α) : List.Sublist (uniqueBy l id) l :=
  sublist_uniqueByAux_id l []

theorem nodup_uniqueBy_id {α : Type} [DecidableEq α] (l : List α) : (uniqueBy l id).Nodup :=
  nodup_uniqueByAux_id l []

theorem uniqueBy_id_ne_nil {α : Type} [DecidableEq α] (l : List α) (h : l ≠ []) :
    uniqueBy l id ≠ [] := by
  obtain ⟨x, hx⟩ := List.exists_mem_of_ne_nil l h
  exact List.ne_nil_of_mem ((mem_uniqueBy_id l x).mpr hx)

theorem resultInv_finalize (file : Nat) (pre : List Nat) (acc : List Token)
    (deps : List Nat) (hacc : AccInv acc) : ResultInv (finalize file pre acc deps) := by
  obtain ⟨hnd, hne⟩ := hacc
  constructor
  · rw [names_finalize]
    exact hnd
  · intro t ht
    simp only [finalize] at ht
    obtain ⟨t0, ht0, rfl⟩ := List.mem_map.mp ht
    exact ⟨uniqueBy_id_ne_nil _ (hne t0 ht0), nodup_uniqueBy_id _⟩

theorem loadItems_inv (env : Env)
    (loadF : Cache → List Nat → Nat → Except LoadError (LoadResult × Cache × List Nat))
    (file : Nat) (chain : List Nat)
    (hF : ∀ cache g r c' rd, CacheInv cache → loadF cache chain g = .ok (r, c', rd) →
      ResultInv r ∧ CacheInv c') :
    ∀ (items : List WorkItem) (acc : List Token) (deps reads : List Nat) (cache : Cache)
      (A : List Token) (D RD : List Nat) (C' : Cache),
      CacheInv cache → AccInv acc →
      loadItems env loadF file chain items acc deps reads cache = .ok (A, D, RD, C') →
      AccInv A ∧ CacheInv C' := by
  intro items
  induction items with
  | nil =>
    intro acc deps reads cache A D RD C' hcache hacc h
    rw [loadItems_nil] at h
    simp only [Except.ok.injEq, Prod.mk.injEq] at h
    obtain ⟨rfl, -, -, rfl⟩ := h
    exact ⟨hacc, hcache⟩
  | cons item rest ih =>
    intro acc deps reads cache A D RD C' hcache hacc h
    cases item with
    | locItem n loc =>
      rw [loadItems_loc] at h
      exact ih _ _ _ _ _ _ _ _ hcache (accInv_addLocations acc n [loc] hacc (by simp)) h
    | impItem s =>
      rw [loadItems_imp] at h
      cases hres : env.resolve s file with
      | ignored => rw [hres] at h; exact ih _ _ _ _ _ _ _ _ hcache hacc h
      | unresolved => rw [hres] at h; exact absurd h (by simp)
      | resolved g =>
        rw [hres] at h
        dsimp only at h
        cases hg : loadF cache chain g with
        | error e => rw [hg] at h; exact absurd h (by simp)
        | ok y =>
          obtain ⟨rg, cache2, rds2⟩ := y
          rw [hg] at h
          dsimp only at h
          obtain ⟨hr, hc2⟩ := hF cache g rg cache2 rds2 hcache hg
          exact ih _ _ _ _ _ _ _ _ hc2
            (accInv_mergeTokens acc rg.tokens hacc (fun t ht => (hr.2 t ht).1)) h
    | compItem ref =>
      rw [loadItems_comp] at h
      cases href : ref.source with
      | localSource => rw [href] at h; exact ih _ _ _ _ _ _ _ _ hcache hacc h
      | fromFile s =>
        rw [href] at h
        dsimp only at h
        cases hres : env.resolve s file with
        | unresolved => rw [hres] at h; exact absurd h (by simp)
        | ignored => rw [hres] at h; exact ih _ _ _ _ _ _ _ _ hcache hacc h
        | resolved g =>
          rw [hres] at h
          dsimp only at h
          cases hg : loadF cache chain g with
          | error e => rw [hg] at h; exact absurd h (by simp)
          | ok y =>
            obtain ⟨rg, cache2, rds2⟩ := y
            rw [hg] at h
            dsimp only at h
            obtain ⟨hr, hc2⟩ := hF cache g rg cache2 rds2 hcache hg
            exact ih _ _ _ _ _ _ _ _ hc2
              (accInv_applyComposedNames acc rg ref.tokenNames hacc
                (fun t ht => (hr.2 t ht).1)) h

theorem loadAux_inv (env : Env) :
    ∀ (fuel : Nat) (cache : Cache) (chain : List Nat) (g : Nat) (r : LoadResult)
      (c' : Cache) (rd : List Nat),
      CacheInv cache →
      loadAux env fuel cache chain g = .ok (r, c', rd) →
      ResultInv r ∧ CacheInv c' := by
  intro fuel
  induction fuel with
  | zero =>
    intro cache chain g r c' rd _ h
    exact absurd h (by simp [loadAux])
  | succ fuel ih =>
    intro cache chain g r c' rd hcache h
    cases hc : assocFind cache g with
    | some r0 =>
      rw [loadAux_hit env fuel cache chain g r0 hc] at h
      simp only [Except.ok.injEq, Prod.mk.injEq] at h
      obtain ⟨rfl, rfl, -⟩ := h
      exact ⟨hcache g r0 hc, hcache⟩
    | none =>
      by_cases hmem : g ∈ chain
      · rw [loadAux_cyc env fuel cache chain g hc hmem] at h
        exact absurd h (by simp)
      · cases hfd : assocFind env.files g with
        | none =>
          rw [loadAux_notFound env fuel cache chain g hc hmem hfd] at h
          exact absurd h (by simp)
        | some fd =>
          rw [loadAux_enter env fuel cache chain g fd hc hmem hfd] at h
          cases hli : loadItems env (loadAux env fuel) g (g :: chain)
              (fileWorkItems fd) [] [] [] cache with
          | error e => rw [hli] at h; exact absurd h (by simp)
          | ok y =>
            obtain ⟨acc, deps, rds, cache2⟩ := y
            rw [hli] at h
            dsimp only at h
            simp only [Except.ok.injEq, Prod.mk.injEq] at h
            obtain ⟨rfl, rfl, -⟩ := h
            obtain ⟨hA, hC2⟩ := loadItems_inv env (loadAux env fuel) g (g :: chain)
              (fun cache3 g3 r3 c3 rd3 hc3 h3 => ih cache3 (g :: chain) g3 r3 c3 rd3 hc3 h3)
              (fileWorkItems fd) [] [] [] cache acc deps rds cache2 hcache
              ⟨by simp, by simp⟩ hli
            have hres : ResultInv (finalize g fd.preBundledDependencies acc deps) :=
              resultInv_finalize g fd.preBundledDependencies acc deps hA
            refine ⟨hres, ?_⟩
            intro g2 r2 h2
            show ResultInv r2
            by_cases hgg : g = g2
            · subst hgg
              unfold assocFind at h2
              rw [if_pos rfl] at h2
              cases h2
              exact hres
            · unfold assocFind at h2
              rw [if_neg hgg] at h2
              exact hC2 g2 r2 h2

/-- C6: every successful load satisfies the Token invariant — token names
are pairwise distinct (duplicate local declarations collapse into one
Token), every token's location list is non-empty, and location lists carry
no duplicate `(file,start,end)` entry; deduplication by `uniqueBy` keeps a
subsequence of the merged list, preserving first-seen order. -/
theorem c6_token_invariant (env : Env) (file : Nat) (r : LoadResult) (c : Cache)
    (rd : List Nat) (h : loadWith env [] file = .ok (r, c, rd)) :
    (r.tokens.map Token.name).Nodup ∧
    (∀ t ∈ r.tokens, t.originalLocations ≠ [] ∧ t.originalLocations.Nodup) ∧
    (∀ l : List Loc, List.Sublist (uniqueBy l id) l) := by
  rw [loadWith_eq] at h
  have hinv := loadAux_inv env (env.files.length + 1) [] [] file r c rd
    (fun g r0 h0 => absurd h0 (by simp [assocFind])) h
  exact ⟨hinv.1.1, hinv.1.2, fun l => uniqueBy_id_sublist l⟩

/-- C6, witness: the `normalizes tokens` fixture satisfies the invariant. -/
theorem c6_witness :
    (resNorm.tokens.map Token.name).Nodup ∧
    (∀ t ∈ resNorm.tokens, t.originalLocations ≠ [] ∧ t.originalLocations.Nodup) ∧
    (∀ l : List Loc, List.Sublist (uniqueBy l id) l) :=
  c6_token_invariant envNorm 1 resNorm
    [(1, resNorm),
     (3, ⟨[⟨"c", [⟨3, 1, 1, 1, 2⟩]⟩], []⟩),
     (2, ⟨[⟨"a", [⟨2, 1, 1, 1, 2⟩]⟩, ⟨"b", [⟨2, 2, 1, 2, 2⟩]⟩], []⟩)]
    [1, 2, 3] rfl

/-! Cache evolution: lookups are preserved, call-chain files stay absent,
and a successful load binds its own file. -/

theorem loadItems_cache_mono (env : Env)
    (loadF : Cache → List Nat → Nat → Except LoadError (LoadResult × Cache × List Nat))
    (file : Nat) (chain : List Nat)
    (hF : ∀ cache g r c' rd, loadF cache chain g = .ok (r, c', rd) →
      (∀ x rx, assocFind cache x = some rx → assocFind c' x = some rx) ∧
      (∀ x ∈ chain, assocFind cache x = none → assocFind c' x = none)) :
    ∀ (items : List WorkItem) (acc : List Token) (deps reads : List Nat) (cache : Cache)
      (A : List Token) (D RD : List Nat) (C' : Cache),
      loadItems env loadF file chain items acc deps reads cache = .ok (A, D, RD, C') →
      (∀ x rx, assocFind cache x = some rx → assocFind C' x = some rx) ∧
      (∀ x ∈ chain, assocFind cache x = none → assocFind C' x = none) := by
  intro items
  induction items with
  | nil =>
    intro acc deps reads cache A D RD C' h
    rw [loadItems_nil] at h
    simp only [Except.ok.injEq, Prod.mk.injEq] at h
    obtain ⟨-, -, -, rfl⟩ := h
    exact ⟨fun x rx hx => hx, fun x _ hx => hx⟩
  | cons item rest ih =>
    intro acc deps reads cache A D RD C' h
    cases item with
    | locItem n loc =>
      rw [loadItems_loc] at h
      exact ih _ _ _ _ _ _ _ _ h
    | impItem s =>
      rw [loadItems_imp] at h
      cases hres : env.resolve s file with
      | ignored => rw [hres] at h; exact ih _ _ _ _ _ _ _ _ h
      | unresolved => rw [hres] at h; exact absurd h (by simp)
      | resolved g =>
        rw [hres] at h
        dsimp only at h
        cases hg : loadF cache chain g with
        | error e => rw [hg] at h; exact absurd h (by simp)
        | ok y =>
          obtain ⟨rg, cache2, rds2⟩ := y
          rw [hg] at h
          dsimp only at h
          obtain ⟨h1, h2⟩ := hF cache g rg cache2 rds2 hg
          obtain ⟨h3, h4⟩ := ih _ _ _ _ _ _ _ _ h
          exact ⟨fun x rx hx => h3 x rx (h1 x rx hx),
            fun x hxc hx => h4 x hxc (h2 x hxc hx)⟩
    | compItem ref =>
      rw [loadItems_comp] at h
      cases href : ref.source with
      | localSource => rw [href] at h; exact ih _ _ _ _ _ _ _ _ h
      | fromFile s =>
        rw [href] at h
        dsimp only at h
        cases hres : env.resolve s file with
        | unresolved => rw [hres] at h; exact absurd h (by simp)
        | ignored => rw [hres] at h; exact ih _ _ _ _ _ _ _ _ h
        | resolved g =>
          rw [hres] at h
          dsimp only at h
          cases hg : loadF cache chain g with
          | error e => rw [hg] at h; exact absurd h (by simp)
          | ok y =>
            obtain ⟨rg, cache2, rds2⟩ := y
            rw [hg] at h
            dsimp only at h
            obtain ⟨h1, h2⟩ := hF cache g rg cache2 rds2 hg
            obtain ⟨h3, h4⟩ := ih _ _ _ _ _ _ _ _ h
            exact ⟨fun x rx hx => h3 x rx (h1 x rx hx),
              fun x hxc hx => h4 x hxc (h2 x hxc hx)⟩

theorem loadAux_cache_mono (env : Env) :
    ∀ (fuel : Nat) (cache : Cache) (chain : List Nat) (g : Nat) (r : LoadResult)
      (c' : Cache) (rd : List Nat),
      loadAux env fuel cache chain g = .ok (r, c', rd) →
      (∀ x rx, assocFind cache x = some rx → assocFind c' x = some rx) ∧
      (∀ x ∈ chain, assocFind cache x = none → assocFind c' x = none) := by
  intro fuel
  induction fuel with
  | zero =>
    intro cache chain g r c' rd h
    exact absurd h (by simp [loadAux])
  | succ fuel ih =>
    intro cache chain g r c' rd h
    cases hc : assocFind cache g with
    | some r0 =>
      rw [loadAux_hit env fuel cache chain g r0 hc] at h
      simp only [Except.ok.injEq, Prod.mk.injEq] at h
      obtain ⟨-, rfl, -⟩ := h
      exact ⟨fun x rx hx => hx, fun x _ hx => hx⟩
    | none =>
      by_cases hmem : g ∈ chain
      · rw [loadAux_cyc env fuel cache chain g hc hmem] at h
        exact absurd h (by simp)
      · cases hfd : assocFind env.files g with
        | none =>
          rw [loadAux_notFound env fuel cache chain g hc hmem hfd] at h
          exact absurd h (by simp)
        | some fd =>
          rw [loadAux_enter env fuel cache chain g fd hc hmem hfd] at h
          cases hli : loadItems env (loadAux env fuel) g (g :: chain)
              (fileWorkItems fd) [] [] [] cache with
          | error e => rw [hli] at h; exact absurd h (by simp)
          | ok y =>
            obtain ⟨acc, deps, rds, cache2⟩ := y
            rw [hli] at h
            dsimp only at h
            simp only [Except.ok.injEq, Prod.mk.injEq] at h
            obtain ⟨-, rfl, -⟩ := h
            obtain ⟨h3, h4⟩ := loadItems_cache_mono env (loadAux env fuel) g (g :: chain)
              (fun cache3 g3 r3 c3 rd3 h3 => ih cache3 (g :: chain) g3 r3 c3 rd3 h3)
              (fileWorkItems fd) [] [] [] cache acc deps rds cache2 hli
            constructor
            · intro x rx hx
              have hxg : x ≠ g := fun he => by rw [he, hc] at hx; cases hx
              show assocFind ((g, _) :: cache2) x = some rx
              unfold assocFind
              rw [if_neg (fun he => hxg he.symm)]
              exact h3 x rx hx
            · intro x hxc hx
              have hxg : x ≠ g := fun he => hmem (he ▸ hxc)
              show assocFind ((g, _) :: cache2) x = none
              unfold assocFind
              rw [if_neg (fun he => hxg he.symm)]
              exact h4 x (List.mem_cons_of_mem g hxc) hx

theorem loadAux_binds_self (env : Env) (fuel : Nat) (cache : Cache) (chain : List Nat)
    (g : Nat) (r : LoadResult) (c' : Cache) (rd : List Nat)
    (h : loadAux env fuel cache chain g = .ok (r, c', rd)) :
    assocFind c' g = some r := by
  cases fuel with
  | zero => exact absurd h (by simp [loadAux])
  | succ fuel =>
    cases hc : assocFind cache g with
    | some r0 =>
      rw [loadAux_hit env fuel cache chain g r0 hc] at h
      simp only [Except.ok.injEq, Prod.mk.injEq] at h
      obtain ⟨rfl, rfl, -⟩ := h
      exact hc
    | none =>
      by_cases hmem : g ∈ chain
      · rw [loadAux_cyc env fuel cache chain g hc hmem] at h
        exact absurd h (by simp)
      · cases hfd : assocFind env.files g with
        | none =>
          rw [loadAux_notFound env fuel cache chain g hc hmem hfd] at h
          exact absurd h (by simp)
        | some fd =>
          rw [loadAux_enter env fuel cache chain g fd hc hmem hfd] at h
          cases hli : loadItems env (loadAux env fuel) g (g :: chain)
              (fileWorkItems fd) [] [] [] cache with
          | error e => rw [hli] at h; exact absurd h (by simp)
          | ok y =>
            obtain ⟨acc, deps, rds, cache2⟩ := y
            rw [hli] at h
            dsimp only at h
            simp only [Except.ok.injEq, Prod.mk.injEq] at h
            obtain ⟨rfl, rfl, -⟩ := h
            unfold assocFind
            rw [if_pos rfl]

/-! Termination and error classification under a well-formed reachable
graph (claim C3). -/

theorem assocFind_isSome_mem {α : Type} :
    ∀ (l : List (Nat × α)) (k : Nat), (assocFind l k).isSome = true → k ∈ l.map Prod.fst := by
  intro l
  induction l with
  | nil => intro k h; simp [assocFind] at h
  | cons p rest ih =>
    intro k h
    obtain ⟨k0, v0⟩ := p
    by_cases he : k0 = k
    · subst he; simp
    · rw [assocFind_cons_ne k0 v0 rest k he] at h
      simp only [List.map_cons, List.mem_cons]
      exact Or.inr (ih k h)

theorem chain_length_le (env : Env) (chain : List Nat) (hnd : chain.Nodup)
    (hsome : ∀ x ∈ chain, (assocFind env.files x).isSome = true) :
    chain.length ≤ env.files.length := by
  have hsub : chain ⊆ env.files.map Prod.fst :=
    fun x hx => assocFind_isSome_mem env.files x (hsome x hx)
  have hle := (List.Nodup.subperm hnd hsub).length_le
  simpa using hle

theorem loadItems_ok_or_cyclic (env : Env)
    (loadF : Cache → List Nat → Nat → Except LoadError (LoadResult × Cache × List Nat))
    (file : Nat) (chain : List Nat) :
    ∀ (items : List WorkItem),
      (∀ item ∈ items, ItemResolves env file item) →
      (∀ (cache : Cache) (g : Nat), g ∈ itemTargets env file items →
        (∃ r c' rd, loadF cache chain g = .ok (r, c', rd)) ∨
        (∃ cy ch, loadF cache chain g = .error (.cyclicComposition cy ch))) →
      ∀ (acc : List Token) (deps reads : List Nat) (cache : Cache),
        (∃ A D RD C',
          loadItems env loadF file chain items acc deps reads cache = .ok (A, D, RD, C')) ∨
        (∃ cy ch,
          loadItems env loadF file chain items acc deps reads cache =
            .error (.cyclicComposition cy ch)) := by
  intro items
  induction items with
  | nil =>
    intro _ _ acc deps reads cache
    exact Or.inl ⟨acc, deps, reads, cache, rfl⟩
  | cons item rest ih =>
    intro hres hF acc deps reads cache
    cases item with
    | locItem n loc =>
      rw [loadItems_loc]
      exact ih (fun i hi => hres i (List.mem_cons_of_mem _ hi))
        (fun cache2 g hg => hF cache2 g (by rw [itemTargets_loc]; exact hg)) _ _ _ _
    | impItem s =>
      have hnu : env.resolve s file ≠ .unresolved := hres _ (List.mem_cons_self _ _)
      rw [loadItems_imp]
      cases hr : env.resolve s file with
      | unresolved => exact absurd hr hnu
      | ignored =>
        exact ih (fun i hi => hres i (List.mem_cons_of_mem _ hi))
          (fun cache2 g hg => hF cache2 g (by rw [itemTargets_imp, hr]; exact hg)) _ _ _ _
      | resolved g =>
        dsimp only
        rcases hF cache g (by rw [itemTargets_imp, hr]; exact List.mem_cons_self _ _) with
          ⟨r, c', rd, heq⟩ | ⟨cy, ch, heq⟩
        · rw [heq]
          dsimp only
          exact ih (fun i hi => hres i (List.mem_cons_of_mem _ hi))
            (fun cache2 g2 hg2 => hF cache2 g2
              (by rw [itemTargets_imp, hr]; exact List.mem_cons_of_mem _ hg2)) _ _ _ _
        · rw [heq]
          exact Or.inr ⟨cy, ch, rfl⟩
    | compItem ref =>
      obtain ⟨tn, src⟩ := ref
      rw [loadItems_comp]
      cases src with
      | localSource =>
        dsimp only
        exact ih (fun i hi => hres i (List.mem_cons_of_mem _ hi))
          (fun cache2 g hg => hF cache2 g (by rw [itemTargets_comp]; exact hg)) _ _ _ _
      | fromFile s =>
        have hnu : env.resolve s file ≠ .unresolved := hres _ (List.mem_cons_self _ _)
        dsimp only
        cases hr : env.resolve s file with
        | unresolved => exact absurd hr hnu
        | ignored =>
          exact ih (fun i hi => hres i (List.mem_cons_of_mem _ hi))
            (fun cache2 g hg => hF cache2 g
              (by rw [itemTargets_comp]; dsimp only; rw [hr]; exact hg)) _ _ _ _
        | resolved g =>
          dsimp only
          rcases hF cache g
              (by rw [itemTargets_comp]; dsimp only; rw [hr]; exact List.mem_cons_self _ _) with
            ⟨r, c', rd, heq⟩ | ⟨cy, ch, heq⟩
          · rw [heq]
            dsimp only
            exact ih (fun i hi => hres i (List.mem_cons_of_mem _ hi))
              (fun cache2 g2 hg2 => hF cache2 g2
                (by rw [itemTargets_comp]; dsimp only; rw [hr]
                    exact List.mem_cons_of_mem _ hg2)) _ _ _ _
          · rw [heq]
            exact Or.inr ⟨cy, ch, rfl⟩

theorem loadAux_ok_or_cyclic (env : Env) (root : Nat)
    (Hroot : ∀ x, Reaches env root x → ResolvesAll env x) :
    ∀ (fuel : Nat) (chain : List Nat) (cache : Cache) (file : Nat),
      Reaches env root file →
      chain.Nodup →
      (∀ x ∈ chain, (assocFind env.files x).isSome = true) →
      env.files.length + 1 ≤ fuel + chain.length →
      (∃ r c' rd, loadAux env fuel cache chain file = .ok (r, c', rd)) ∨
      (∃ cy ch, loadAux env fuel cache chain file = .error (.cyclicComposition cy ch)) := by
  intro fuel
  induction fuel with
  | zero =>
    intro chain cache file hre hnd hsome hbound
    exfalso
    have := chain_length_le env chain hnd hsome
    omega
  | succ fuel ih =>
    intro chain cache file hre hnd hsome hbound
    cases hc : assocFind cache file with
    | some r0 => exact Or.inl ⟨r0, cache, [], loadAux_hit env fuel cache chain file r0 hc⟩
    | none =>
      by_cases hmem : file ∈ chain
      · exact Or.inr ⟨file, chain, loadAux_cyc env fuel cache chain file hc hmem⟩
      · obtain ⟨hsome_f, hitems⟩ := Hroot file hre
        cases hfd : assocFind env.files file with
        | none =>
          rw [hfd] at hsome_f
          exact absurd hsome_f (by simp)
        | some fd =>
          rw [loadAux_enter env fuel cache chain file fd hc hmem hfd]
          have hedges : itemTargets env file (fileWorkItems fd) = edgeTargets env file := by
            rw [edgeTargets, hfd]
          have hwalk := loadItems_ok_or_cyclic env (loadAux env fuel) file (file :: chain)
            (fileWorkItems fd) (hitems fd hfd)
            (fun cache2 g hg => ih (file :: chain) cache2 g
              (reaches_trans hre (Reaches.step (hedges ▸ hg) (Reaches.refl g)))
              (List.nodup_cons.mpr ⟨hmem, hnd⟩)
              (fun x hx => by
                rcases List.mem_cons.mp hx with rfl | hx
                · rw [hfd]; rfl
                · exact hsome x hx)
              (by simp only [List.length_cons]; omega))
            [] [] [] cache
          rcases hwalk with ⟨A, D, RD, C', heq⟩ | ⟨cy, ch, heq⟩
          · rw [heq]
            dsimp only
            exact Or.inl ⟨_, _, _, rfl⟩
          · rw [heq]
            exact Or.inr ⟨cy, ch, rfl⟩

theorem loadItems_ok_acyclic (env : Env)
    (loadF : Cache → List Nat → Nat → Except LoadError (LoadResult × Cache × List Nat))
    (file : Nat) (chain : List Nat)
    (hF : ∀ cache g r c' rd, CacheAcyclic env cache → loadF cache chain g = .ok (r, c', rd) →
      ¬ CycleFrom env g ∧ CacheAcyclic env c') :
    ∀ (items : List WorkItem) (acc : List Token) (deps reads : List Nat) (cache : Cache)
      (A : List Token) (D RD : List Nat) (C' : Cache),
      CacheAcyclic env cache →
      loadItems env loadF file chain items acc deps reads cache = .ok (A, D, RD, C') →
      CacheAcyclic env C' ∧ ∀ g ∈ itemTargets env file items, ¬ CycleFrom env g := by
  intro items
  induction items with
  | nil =>
    intro acc deps reads cache A D RD C' hcache h
    rw [loadItems_nil] at h
    simp only [Except.ok.injEq, Prod.mk.injEq] at h
    obtain ⟨-, -, -, rfl⟩ := h
    exact ⟨hcache, by simp [itemTargets]⟩
  | cons item rest ih =>
    intro acc deps reads cache A D RD C' hcache h
    cases item with
    | locItem n loc =>
      rw [loadItems_loc] at h
      obtain ⟨h1, h2⟩ := ih _ _ _ _ _ _ _ _ hcache h
      exact ⟨h1, by rw [itemTargets_loc]; exact h2⟩
    | impItem s =>
      rw [loadItems_imp] at h
      cases hr : env.resolve s file with
      | unresolved => rw [hr] at h; exact absurd h (by simp)
      | ignored =>
        rw [hr] at h
        obtain ⟨h1, h2⟩ := ih _ _ _ _ _ _ _ _ hcache h
        refine ⟨h1, ?_⟩
        rw [itemTargets_imp, hr]
        exact h2
      | resolved g =>
        rw [hr] at h
        dsimp only at h
        cases hg : loadF cache chain g with
        | error e => rw [hg] at h; exact absurd h (by simp)
        | ok y =>
          obtain ⟨rg, cache2, rds2⟩ := y
          rw [hg] at h
          dsimp only at h
          obtain ⟨hng, hc2⟩ := hF cache g rg cache2 rds2 hcache hg
          obtain ⟨h1, h2⟩ := ih _ _ _ _ _ _ _ _ hc2 h
          refine ⟨h1, ?_⟩
          rw [itemTargets_imp, hr]
          intro t ht
          rcases List.mem_cons.mp ht with rfl | ht
          · exact hng
          · exact h2 t ht
    | compItem ref =>
      obtain ⟨tn, src⟩ := ref
      rw [loadItems_comp] at h
      cases src with
      | localSource =>
        dsimp only at h
        obtain ⟨h1, h2⟩ := ih _ _ _ _ _ _ _ _ hcache h
        exact ⟨h1, by rw [itemTargets_comp]; exact h2⟩
      | fromFile s =>
        dsimp only at h
        cases hr : env.resolve s file with
        | unresolved => rw [hr] at h; exact absurd h (by simp)
        | ignored =>
          rw [hr] at h
          obtain ⟨h1, h2⟩ := ih _ _ _ _ _ _ _ _ hcache h
          refine ⟨h1, ?_⟩
          rw [itemTargets_comp]
          dsimp only
          rw [hr]
          exact h2
        | resolved g =>
          rw [hr] at h
          dsimp only at h
          cases hg : loadF cache chain g with
          | error e => rw [hg] at h; exact absurd h (by simp)
          | ok y =>
            obtain ⟨rg, cache2, rds2⟩ := y
            rw [hg] at h
            dsimp only at h
            obtain ⟨hng, hc2⟩ := hF cache g rg cache2 rds2 hcache hg
            obtain ⟨h1, h2⟩ := ih _ _ _ _ _ _ _ _ hc2 h
            refine ⟨h1, ?_⟩
            rw [itemTargets_comp]
            dsimp only
            rw [hr]
            intro t ht
            rcases List.mem_cons.mp ht with rfl | ht
            · exact hng
            · exact h2 t ht

theorem loadAux_ok_acyclic (env : Env) :
    ∀ (fuel : Nat) (cache : Cache) (chain : List Nat) (g : Nat) (r : LoadResult)
      (c' : Cache) (rd : List Nat),
      CacheAcyclic env cache →
      loadAux env fuel cache chain g = .ok (r, c', rd) →
      ¬ CycleFrom env g ∧ CacheAcyclic env c' := by
  intro fuel
  induction fuel with
  | zero =>
    intro cache chain g r c' rd _ h
    exact absurd h (by simp [loadAux])
  | succ fuel ih =>
    intro cache chain g r c' rd hcache h
    cases hc : assocFind cache g with
    | some r0 =>
      rw [loadAux_hit env fuel cache chain g r0 hc] at h
      simp only [Except.ok.injEq, Prod.mk.injEq] at h
      obtain ⟨-, rfl, -⟩ := h
      exact ⟨hcache g r0 hc, hcache⟩
    | none =>
      by_cases hmem : g ∈ chain
      · rw [loadAux_cyc env fuel cache chain g hc hmem] at h
        exact absurd h (by simp)
      · cases hfd : assocFind env.files g with
        | none =>
          rw [loadAux_notFound env fuel cache chain g hc hmem hfd] at h
          exact absurd h (by simp)
        | some fd =>
          rw [loadAux_enter env fuel cache chain g fd hc hmem hfd] at h
          cases hli : loadItems env (loadAux env fuel) g (g :: chain)
              (fileWorkItems fd) [] [] [] cache with
          | error e => rw [hli] at h; exact absurd h (by simp)
          | ok y =>
            obtain ⟨acc, deps, rds, cache2⟩ := y
            rw [hli] at h
            dsimp only at h
            simp only [Except.ok.injEq, Prod.mk.injEq] at h
            obtain ⟨-, rfl, -⟩ := h
            obtain ⟨hC2, htargets⟩ := loadItems_ok_acyclic env (loadAux env fuel) g (g :: chain)
              (fun cache3 g3 r3 c3 rd3 hc3 h3 => ih cache3 (g :: chain) g3 r3 c3 rd3 hc3 h3)
              (fileWorkItems fd) [] [] [] cache acc deps rds cache2 hcache hli
            have htargets' : ∀ t ∈ edgeTargets env g, ¬ CycleFrom env t := by
              intro t ht
              rw [edgeTargets, hfd] at ht
              exact htargets t ht
            have hng : ¬ CycleFrom env g := by
              rintro ⟨x, w, hgx, hw, hwx⟩
              cases hgx with
              | refl => exact htargets' w hw ⟨g, w, hwx, hw, hwx⟩
              | step h1 h2 =>
                exact htargets' _ h1 ⟨x, w, h2, hw, hwx⟩
            refine ⟨hng, ?_⟩
            intro g2 r2 h2
            by_cases hgg : g = g2
            · subst hgg
              rw [assocFind_cons_self] at h2
              exact hng
            · rw [assocFind_cons_ne g _ cache2 g2 hgg] at h2
              exact hC2 g2 r2 h2

/-- C3: for every composition graph in which all files reachable from the
requested file exist and all their specifiers resolve, if a cycle of
resolved reference edges is reachable from the requested file then the
load terminates and fails with `CyclicComposition` — detection is by
membership of the file in the current call chain, checked before
recursing. -/
theorem c3_cycle_detection (env : Env) (root : Nat)
    (Hroot : ∀ x, Reaches env root x → ResolvesAll env x)
    (Hcyc : CycleFrom env root) :
    ∃ cy ch, loadWith env [] root = .error (.cyclicComposition cy ch) := by
  rcases loadAux_ok_or_cyclic env root Hroot (env.files.length + 1) [] [] root
      (Reaches.refl root) List.nodup_nil (by simp) (by simp) with
    ⟨r, c', rd, heq⟩ | ⟨cy, ch, heq⟩
  · exfalso
    exact (loadAux_ok_acyclic env (env.files.length + 1) [] [] root r c' rd
      (fun g r0 h0 => absurd h0 (by simp [assocFind])) heq).1 Hcyc
  · exact ⟨cy, ch, by rw [loadWith_eq]; exact heq⟩

/-- C3, witness: the direct cycle (file 1 composes from file 2 and file 2
composes from file 1) fails with `CyclicComposition`; concretely the model
reports file 1 rejected against the chain `[2, 1]`. -/
theorem c3_witness :
    (∃ cy ch, loadWith envCycle [] 1 = .error (.cyclicComposition cy ch)) ∧
    loadWith envCycle [] 1 = .error (.cyclicComposition 1 [2, 1]) := by
  refine ⟨?_, rfl⟩
  apply c3_cycle_detection
  · have hstep : ∀ a x, Reaches envCycle a x → (a = 1 ∨ a = 2) → (x = 1 ∨ x = 2) := by
      intro a x h
      induction h with
      | refl f => exact fun ha => ha
      | step hg hrest ih =>
        intro ha
        apply ih
        rcases ha with rfl | rfl
        · rw [show edgeTargets envCycle 1 = [2] from rfl] at hg
          simp only [List.mem_singleton] at hg
          exact Or.inr hg
        · rw [show edgeTargets envCycle 2 = [1] from rfl] at hg
          simp only [List.mem_singleton] at hg
          exact Or.inl hg
    intro x hx
    rcases hstep 1 x hx (Or.inl rfl) with rfl | rfl
    · refine ⟨rfl, ?_⟩
      intro fd hfd item hitem
      rw [show assocFind envCycle.files 1 =
        some ⟨[], [("a", ⟨1, 1, 1, 1, 2⟩)], [⟨["b"], .fromFile "./2.css"⟩], []⟩ from rfl] at hfd
      simp only [Option.some.injEq] at hfd
      subst hfd
      rw [show fileWorkItems ⟨[], [("a", ⟨1, 1, 1, 1, 2⟩)], [⟨["b"], .fromFile "./2.css"⟩], []⟩ =
        [WorkItem.locItem "a" ⟨1, 1, 1, 1, 2⟩,
         WorkItem.compItem ⟨["b"], .fromFile "./2.css"⟩] from rfl] at hitem
      rcases List.mem_cons.mp hitem with rfl | hitem
      · exact trivial
      · rcases List.mem_singleton.mp hitem with rfl
        exact (by decide : envCycle.resolve "./2.css" 1 ≠ .unresolved)
    · refine ⟨rfl, ?_⟩
      intro fd hfd item hitem
      rw [show assocFind envCycle.files 2 =
        some ⟨[], [("b", ⟨2, 1, 1, 1, 2⟩)], [⟨["a"], .fromFile "./1.css"⟩], []⟩ from rfl] at hfd
      simp only [Option.some.injEq] at hfd
      subst hfd
      rw [show fileWorkItems ⟨[], [("b", ⟨2, 1, 1, 1, 2⟩)], [⟨["a"], .fromFile "./1.css"⟩], []⟩ =
        [WorkItem.locItem "b" ⟨2, 1, 1, 1, 2⟩,
         WorkItem.compItem ⟨["a"], .fromFile "./1.css"⟩] from rfl] at hitem
      rcases List.mem_cons.mp hitem with rfl | hitem
      · exact trivial
      · rcases List.mem_singleton.mp hitem with rfl
        exact (by decide : envCycle.resolve "./1.css" 2 ≠ .unresolved)
  · refine ⟨1, 2, Reaches.refl 1, ?_, ?_⟩
    · rw [show edgeTargets envCycle 1 = [2] from rfl]
      exact List.mem_cons_self _ _
    · refine Reaches.step (g := 1) ?_ (Reaches.refl 1)
      rw [show edgeTargets envCycle 2 = [1] from rfl]
      exact List.mem_cons_self _ _

theorem loadItems_deps_char (env : Env)
    (loadF : Cache → List Nat → Nat → Except LoadError (LoadResult × Cache × List Nat))
    (file : Nat) (chain : List Nat)
    (hF : ∀ cache g r c' rd, loadF cache chain g = .ok (r, c', rd) →
      (∀ x rx, assocFind cache x = some rx → assocFind c' x = some rx) ∧
      (∀ x ∈ chain, assocFind cache x = none → assocFind c' x = none))
    (hFbind : ∀ cache g r c' rd, loadF cache chain g = .ok (r, c', rd) →
      assocFind c' g = some r) :
    ∀ (items : List WorkItem) (acc : List Token) (deps reads : List Nat) (cache : Cache)
      (A : List Token) (D RD : List Nat) (C' : Cache),
      loadItems env loadF file chain items acc deps reads cache = .ok (A, D, RD, C') →
      ∀ d, d ∈ D ↔ (d ∈ deps ∨ ∃ g rg, g ∈ itemTargets env file items ∧
        assocFind C' g = some rg ∧ (d = g ∨ d ∈ rg.dependencies)) := by
  intro items
  induction items with
  | nil =>
    intro acc deps reads cache A D RD C' h d
    rw [loadItems_nil] at h
    simp only [Except.ok.injEq, Prod.mk.injEq] at h
    obtain ⟨-, rfl, -, -⟩ := h
    simp [itemTargets]
  | cons item rest ih =>
    intro acc deps reads cache A D RD C' h d
    cases item with
    | locItem n loc =>
      rw [loadItems_loc] at h
      rw [itemTargets_loc]
      exact ih _ _ _ _ _ _ _ _ h d
    | impItem s =>
      rw [loadItems_imp] at h
      rw [itemTargets_imp]
      cases hres : env.resolve s file with
      | ignored =>
        rw [hres] at h
        dsimp only
        exact ih _ _ _ _ _ _ _ _ h d
      | unresolved => rw [hres] at h; exact absurd h (by simp)
      | resolved g =>
        rw [hres] at h
        dsimp only at h ⊢
        cases hg : loadF cache chain g with
        | error e => rw [hg] at h; exact absurd h (by simp)
        | ok y =>
          obtain ⟨rg1, cache2, rds2⟩ := y
          rw [hg] at h
          dsimp only at h
          have hbindC' : assocFind C' g = some rg1 :=
            (loadItems_cache_mono env loadF file chain hF rest _ _ _ _ _ _ _ _ h).1 g rg1
              (hFbind cache g rg1 cache2 rds2 hg)
          rw [ih _ _ _ _ _ _ _ _ h d]
          constructor
          · rintro (hd | ⟨g2, rg2, hgt, hbind, hdd⟩)
            · rcases List.mem_append.mp hd with hd | hd
              · exact Or.inl hd
              · refine Or.inr ⟨g, rg1, List.mem_cons_self _ _, hbindC', ?_⟩
                rcases List.mem_cons.mp hd with rfl | hd
                · exact Or.inl rfl
                · exact Or.inr hd
            · exact Or.inr ⟨g2, rg2, List.mem_cons_of_mem g hgt, hbind, hdd⟩
          · rintro (hd | ⟨g2, rg2, hgt, hbind, hdd⟩)
            · exact Or.inl (List.mem_append.mpr (Or.inl hd))
            · rcases List.mem_cons.mp hgt with rfl | hgt
              · rw [hbindC'] at hbind
                simp only [Option.some.injEq] at hbind
                subst hbind
                refine Or.inl (List.mem_append.mpr (Or.inr ?_))
                rcases hdd with rfl | hdd
                · exact List.mem_cons_self _ _
                · exact List.mem_cons_of_mem _ hdd
              · exact Or.inr ⟨g2, rg2, hgt, hbind, hdd⟩
    | compItem ref =>
      rw [loadItems_comp] at h
      rw [itemTargets_comp]
      cases href : ref.source with
      | localSource =>
        rw [href] at h
        dsimp only
        exact ih _ _ _ _ _ _ _ _ h d
      | fromFile s =>
        rw [href] at h
        dsimp only at h ⊢
        cases hres : env.resolve s file with
        | unresolved => rw [hres] at h; exact absurd h (by simp)
        | ignored =>
          rw [hres] at h
          dsimp only
          exact ih _ _ _ _ _ _ _ _ h d
        | resolved g =>
          rw [hres] at h
          dsimp only at h ⊢
          cases hg : loadF cache chain g with
          | error e => rw [hg] at h; exact absurd h (by simp)
          | ok y =>
            obtain ⟨rg1, cache2, rds2⟩ := y
            rw [hg] at h
            dsimp only at h
            have hbindC' : assocFind C' g = some rg1 :=
              (loadItems_cache_mono env loadF file chain hF rest _ _ _ _ _ _ _ _ h).1 g rg1
                (hFbind cache g rg1 cache2 rds2 hg)
            rw [ih _ _ _ _ _ _ _ _ h d]
            constructor
            · rintro (hd | ⟨g2, rg2, hgt, hbind, hdd⟩)
              · rcases List.mem_append.mp hd with hd | hd
                · exact Or.inl hd
                · refine Or.inr ⟨g, rg1, List.mem_cons_self _ _, hbindC', ?_⟩
                  rcases List.mem_cons.mp hd with rfl | hd
                  · exact Or.inl rfl
                  · exact Or.inr hd
              · exact Or.inr ⟨g2, rg2, List.mem_cons_of_mem g hgt, hbind, hdd⟩
            · rintro (hd | ⟨g2, rg2, hgt, hbind, hdd⟩)
              · exact Or.inl (List.mem_append.mpr (Or.inl hd))
              · rcases List.mem_cons.mp hgt with rfl | hgt
                · rw [hbindC'] at hbind
                  simp only [Option.some.injEq] at hbind
                  subst hbind
                  refine Or.inl (List.mem_append.mpr (Or.inr ?_))
                  rcases hdd with rfl | hdd
                  · exact List.mem_cons_self _ _
                  · exact List.mem_cons_of_mem _ hdd
                · exact Or.inr ⟨g2, rg2, hgt, hbind, hdd⟩

/-- C7: for every successful load, the dependency set is exactly the
pre-bundled dependencies plus, for each resolved reference target, the
target itself and the target's own dependencies (whose results sit in the
returned cache), minus the requested file — the full transitive closure,
so a file reached only through a chain of references still appears. -/
theorem c7_dependency_closure (env : Env) (file : Nat) (fd : FileData) (r : LoadResult)
    (c : Cache) (rd : List Nat)
    (hfd : assocFind env.files file = some fd)
    (h : loadWith env [] file = .ok (r, c, rd)) :
    ∀ d, d ∈ r.dependencies ↔
      (d ≠ file ∧ (d ∈ fd.preBundledDependencies ∨
        ∃ g rg, g ∈ edgeTargets env file ∧ assocFind c g = some rg ∧
          (d = g ∨ d ∈ rg.dependencies))) := by
  rw [loadWith_eq] at h
  rw [loadAux_enter env env.files.length [] [] file fd rfl (List.not_mem_nil file) hfd] at h
  cases hli : loadItems env (loadAux env env.files.length) file [file]
      (fileWorkItems fd) [] [] [] [] with
  | error e => rw [hli] at h; exact absurd h (by simp)
  | ok y =>
    obtain ⟨acc, deps, rds, cache2⟩ := y
    rw [hli] at h
    dsimp only at h
    simp only [Except.ok.injEq, Prod.mk.injEq] at h
    obtain ⟨rfl, rfl, -⟩ := h
    have hFpack : ∀ cache3 g3 r3 c3 rd3,
        loadAux env env.files.length cache3 [file] g3 = .ok (r3, c3, rd3) →
        (∀ x rx, assocFind cache3 x = some rx → assocFind c3 x = some rx) ∧
        (∀ x ∈ [file], assocFind cache3 x = none → assocFind c3 x = none) :=
      fun cache3 g3 r3 c3 rd3 h3 =>
        loadAux_cache_mono env env.files.length cache3 [file] g3 r3 c3 rd3 h3
    have hchar := loadItems_deps_char env (loadAux env env.files.length) file [file]
      hFpack
      (fun cache3 g3 r3 c3 rd3 h3 =>
        loadAux_binds_self env env.files.length cache3 [file] g3 r3 c3 rd3 h3)
      (fileWorkItems fd) [] [] [] [] acc deps rds cache2 hli
    have hfileNone : assocFind cache2 file = none :=
      (loadItems_cache_mono env (loadAux env env.files.length) file [file] hFpack
        (fileWorkItems fd) [] [] [] [] acc deps rds cache2 hli).2 file
        (List.mem_cons_self _ _) rfl
    intro d
    show d ∈ uniqueBy ((fd.preBundledDependencies ++ deps).filter (fun x => x != file)) id ↔ _
    rw [mem_uniqueBy_id, List.mem_filter]
    have hedge : itemTargets env file (fileWorkItems fd) = edgeTargets env file := by
      rw [edgeTargets, hfd]
    constructor
    · rintro ⟨hd, hdne⟩
      have hdne' : d ≠ file := by simpa using hdne
      refine ⟨hdne', ?_⟩
      rcases List.mem_append.mp hd with hd | hd
      · exact Or.inl hd
      · rcases (hchar d).mp hd with hd | ⟨g, rg, hgt, hbind, hdd⟩
        · simp at hd
        · have hgfile : g ≠ file := fun he => by rw [he, hfileNone] at hbind; cases hbind
          refine Or.inr ⟨g, rg, hedge ▸ hgt, ?_, hdd⟩
          show assocFind ((file, _) :: cache2) g = some rg
          unfold assocFind
          rw [if_neg (fun he => hgfile he.symm)]
          exact hbind
    · rintro ⟨hdne, hd | ⟨g, rg, hgt, hbind, hdd⟩⟩
      · exact ⟨List.mem_append.mpr (Or.inl hd), by simpa using hdne⟩
      · by_cases hgfile : g = file
        · subst hgfile
          rw [assocFind_cons_self] at hbind
          simp only [Option.some.injEq] at hbind
          subst hbind
          rcases hdd with rfl | hdd
          · exact absurd rfl hdne
          · exact List.mem_filter.mp ((mem_uniqueBy_id _ d).mp hdd)
        · rw [assocFind_cons_ne file _ cache2 g (fun he => hgfile he.symm)] at hbind
          refine ⟨List.mem_append.mpr (Or.inr ?_), by simpa using hdne⟩
          exact (hchar d).mpr (Or.inr ⟨g, rg, hedge ▸ hgt, hbind, hdd⟩)

/-- C7, witness: the three-file chain. File 1 composes from file 2, which
composes from file 3; file 3 appears in file 1's dependencies although it
is reached only transitively. -/
theorem c7_witness :
    (3 ∈ (⟨[⟨"a", [⟨1, 1, 1, 1, 2⟩]⟩, ⟨"b", [⟨2, 1, 1, 1, 2⟩]⟩], [2, 3]⟩ :
        LoadResult).dependencies ↔
      (3 ≠ 1 ∧ (3 ∈ ([] : List Nat) ∨
        ∃ g rg, g ∈ edgeTargets envChain 1 ∧
          assocFind [(1, (⟨[⟨"a", [⟨1, 1, 1, 1, 2⟩]⟩, ⟨"b", [⟨2, 1, 1, 1, 2⟩]⟩], [2, 3]⟩ :
              LoadResult)),
            (2, ⟨[⟨"b", [⟨2, 1, 1, 1, 2⟩]⟩, ⟨"c", [⟨3, 1, 1, 1, 2⟩]⟩], [3]⟩),
            (3, ⟨[⟨"c", [⟨3, 1, 1, 1, 2⟩]⟩], []⟩)] g = some rg ∧
          (3 = g ∨ 3 ∈ rg.dependencies)))) :=
  c7_dependency_closure envChain 1
    ⟨[], [("a", ⟨1, 1, 1, 1, 2⟩)], [⟨["b"], .fromFile "./2.css"⟩], []⟩
    ⟨[⟨"a", [⟨1, 1, 1, 1, 2⟩]⟩, ⟨"b", [⟨2, 1, 1, 1, 2⟩]⟩], [2, 3]⟩
    [(1, ⟨[⟨"a", [⟨1, 1, 1, 1, 2⟩]⟩, ⟨"b", [⟨2, 1, 1, 1, 2⟩]⟩], [2, 3]⟩),
     (2, ⟨[⟨"b", [⟨2, 1, 1, 1, 2⟩]⟩, ⟨"c", [⟨3, 1, 1, 1, 2⟩]⟩], [3]⟩),
     (3, ⟨[⟨"c", [⟨3, 1, 1, 1, 2⟩]⟩], []⟩)]
    [1, 2, 3] rfl rfl 3

/-- C8: pre-bundled dependencies are recorded but never independently
processed. Every pre-bundled dependency of the requested file (other than
the file itself) appears in the returned dependency set, while every file
whose content the load actually read is reachable from the requested file
along resolved import/composition edges — a file that is only pre-bundled
and not referenced by such an edge is never read. -/
theorem c8_preBundled_frame (env : Env) (file : Nat) (fd : FileData) (r : LoadResult)
    (c : Cache) (rd : List Nat)
    (hfd : assocFind env.files file = some fd)
    (h : loadWith env [] file = .ok (r, c, rd)) :
    (∀ p ∈ fd.preBundledDependencies, p ≠ file → p ∈ r.dependencies) ∧
    (∀ p ∈ rd, Reaches env file p) := by
  constructor
  · rw [loadWith_eq] at h
    rw [loadAux_enter env env.files.length [] [] file fd rfl (List.not_mem_nil file) hfd] at h
    cases hli : loadItems env (loadAux env env.files.length) file [file]
        (fileWorkItems fd) [] [] [] [] with
    | error e => rw [hli] at h; exact absurd h (by simp)
    | ok y =>
      obtain ⟨acc, deps, rds, cache'⟩ := y
      rw [hli] at h
      dsimp only at h
      simp only [Except.ok.injEq, Prod.mk.injEq] at h
      obtain ⟨rfl, -, -⟩ := h
      intro p hp hpne
      show p ∈ uniqueBy ((fd.preBundledDependencies ++ deps).filter (fun d => d != file)) id
      rw [mem_uniqueBy_id]
      refine List.mem_filter.mpr ⟨List.mem_append.mpr (Or.inl hp), ?_⟩
      simpa using hpne
  · intro p hp
    rw [loadWith_eq] at h
    exact loadAux_reads_reaches env _ [] [] file r c rd h p hp

/-- C8, witness: the pre-bundled fixture. Files 2, 3 and 4 are recorded in
the dependency set, and the only file read is file 1 itself. -/
theorem c8_witness :
    (∀ p ∈ fdLess.preBundledDependencies, p ≠ 1 →
      p ∈ (⟨[], [2, 3, 4]⟩ : LoadResult).dependencies) ∧
    (∀ p ∈ [1], Reaches envLess 1 p) :=
  c8_preBundled_frame envLess 1 fdLess ⟨[], [2, 3, 4]⟩ [(1, ⟨[], [2, 3, 4]⟩)] [1] rfl rfl

/-- C4: within one cache lifetime, loading the same file twice performs
the read/transform/extract pass at most once. A successful top-level load
reads the requested file exactly once, and a second top-level call against
the resulting cache returns the cached result with no read at all. -/
theorem c4_cache_memoization (env : Env) (file : Nat) (r : LoadResult)
    (c : Cache) (reads : List Nat)
    (h : loadWith env [] file = .ok (r, c, reads)) :
    loadWith env c file = .ok (r, c, []) ∧ reads.count file = 1 := by
  rw [loadWith_eq] at h
  cases hfd : assocFind env.files file with
  | none =>
    rw [loadAux_notFound env env.files.length [] [] file rfl (List.not_mem_nil file) hfd] at h
    exact absurd h (by simp)
  | some fd =>
    rw [loadAux_enter env env.files.length [] [] file fd rfl (List.not_mem_nil file) hfd] at h
    cases hli : loadItems env (loadAux env env.files.length) file [file]
        (fileWorkItems fd) [] [] [] [] with
    | error e => rw [hli] at h; exact absurd h (by simp)
    | ok y =>
      obtain ⟨acc, deps, rds, cache'⟩ := y
      rw [hli] at h
      dsimp only at h
      simp only [Except.ok.injEq, Prod.mk.injEq] at h
      obtain ⟨rfl, rfl, rfl⟩ := h
      constructor
      · rw [loadWith_eq]
        refine loadAux_hit env env.files.length _ [] file _ ?_
        show assocFind ((file, finalize file fd.preBundledDependencies acc deps) :: cache')
          file = some _
        simp [assocFind]
      · have hnot : file ∉ rds := by
          refine loadItems_reads_chain env (loadAux env env.files.length) file [file] file
            ?_ (fileWorkItems fd) [] [] [] [] acc deps rds cache' (by simp) hli
          intro cache3 g3 r3 c3 rd3 h3
          exact loadAux_reads_chain env _ cache3 [file] g3 r3 c3 rd3 h3 file (by simp)
        rw [List.count_cons_self, List.count_eq_zero_of_not_mem hnot]

/-- C4, witness: loading file 1 of the composes fixture reads files 1 and
2 once; repeating the call against the produced cache reads nothing and
returns the cached result. -/
theorem c4_witness :
    loadWith envC1 [(1, resC1), (2, ⟨[⟨"b", [locB2]⟩], []⟩)] 1 =
      .ok (resC1, [(1, resC1), (2, ⟨[⟨"b", [locB2]⟩], []⟩)], []) ∧
    [1, 2].count 1 = 1 :=
  c4_cache_memoization envC1 1 resC1 [(1, resC1), (2, ⟨[⟨"b", [locB2]⟩], []⟩)] [1, 2] rfl

/-- C2: composition failures are asymmetric. If the specifier of a
`composes ... from` reference does not resolve, the whole load fails with
`UnresolvedComposesTarget`; if it resolves but the target merely lacks a
named token, the name is silently skipped and the load succeeds with only
the names that were found (the local tokens plus the listed names the
target exports). -/
theorem c2_asymmetric_composition_failure (env : Env) (file : Nat)
    (locals : List (String × Loc)) (names : List String) (s : String) (pre : List Nat)
    (hfd : assocFind env.files file = some ⟨[], locals, [⟨names, .fromFile s⟩], pre⟩) :
    (env.resolve s file = .unresolved →
      load env file = .error (.unresolvedComposesTarget s file)) ∧
    (∀ g rg c' rd, env.resolve s file = .resolved g →
      loadAux env env.files.length [] [file] g = .ok (rg, c', rd) →
      ∃ r, load env file = .ok r ∧
        ∀ n, n ∈ r.tokens.map Token.name ↔
          (n ∈ locals.map Prod.fst ∨ (n ∈ names ∧ n ∈ rg.tokens.map Token.name))) := by
  have hen := loadAux_enter env env.files.length [] [] file
    ⟨[], locals, [⟨names, .fromFile s⟩], pre⟩ rfl (List.not_mem_nil file) hfd
  simp only [fileWorkItems, List.map_nil, List.nil_append, List.map_cons] at hen
  rw [loadItems_locals, loadItems_comp] at hen
  dsimp only at hen
  constructor
  · intro hres
    rw [hres] at hen
    rw [load_eq, hen]
    rfl
  · intro g rg c' rd hres hg
    rw [hres] at hen
    dsimp only at hen
    rw [hg] at hen
    dsimp only at hen
    rw [loadItems_nil] at hen
    refine ⟨finalize file pre
      (applyComposedNames (addLocalTokens [] locals) rg names)
      ([] ++ g :: rg.dependencies), ?_, ?_⟩
    · rw [load_eq, hen]
      rfl
    · intro n
      rw [names_finalize, mem_names_applyComposedNames, mem_names_addLocalTokens]
      simp

/-- C2, witness: the two test fixtures. A missing file fails the load with
`UnresolvedComposesTarget`; a missing token (`c`) in a resolved file is
skipped, and the result carries exactly `a` and `b`. -/
theorem c2_witness :
    load envMissFile 1 = .error (.unresolvedComposesTarget "./2.css" 1) ∧
    ∃ r, load envMissTok 1 = .ok r ∧
      "a" ∈ r.tokens.map Token.name ∧ "b" ∈ r.tokens.map Token.name ∧
      "c" ∉ r.tokens.map Token.name := by
  constructor
  · exact (c2_asymmetric_composition_failure envMissFile 1
      [("a", ⟨1, 1, 1, 1, 2⟩)] ["a"] "./2.css" [] rfl).1 rfl
  · obtain ⟨r, hr, hiff⟩ := (c2_asymmetric_composition_failure envMissTok 1
      [("a", ⟨1, 1, 1, 1, 2⟩)] ["b", "c"] "./2.css" [] rfl).2
      2 ⟨[⟨"b", [⟨2, 1, 1, 1, 2⟩]⟩], []⟩ [(2, ⟨[⟨"b", [⟨2, 1, 1, 1, 2⟩]⟩], []⟩)] [2] rfl rfl
    refine ⟨r, hr, ?_, ?_, ?_⟩
    · exact (hiff "a").mpr (Or.inl (by decide))
    · exact (hiff "b").mpr (Or.inr (by decide))
    · intro hc
      have hx := (hiff "c").mp hc
      revert hx
      decide

/-- C9: an ignored specifier short-circuits. `ResolverFileManager.loadFile`
returns an empty file for it without invoking the resolver or the base
file manager (no I/O events); and a load of a file whose references are
all ignored specifiers succeeds, reads only that file, reports no
dependencies, and contributes no tokens beyond the file's own local
tokens. -/
theorem c9_ignored_specifier_short_circuit
    (isIg : String → Bool) (resolverFn : String → String → String)
    (superLoadFile : String → String → FileLoadResult × List String)
    (filename currentDirectory : String)
    (env : Env) (file : Nat) (fd : FileData)
    (hig : isIg filename = true)
    (hfd : assocFind env.files file = some fd)
    (hcomp : fd.composesRefs = []) (hpre : fd.preBundledDependencies = [])
    (himps : ∀ s ∈ fd.imps, env.resolve s file = .ignored) :
    loadFile isIg resolverFn superLoadFile filename currentDirectory =
      ({ contents := "", filename := filename }, []) ∧
    ∃ r c, loadWith env [] file = .ok (r, c, [file]) ∧
      r.dependencies = [] ∧
      ∀ n, n ∈ r.tokens.map Token.name ↔ n ∈ fd.localTokens.map Prod.fst := by
  constructor
  · unfold loadFile
    rw [if_pos hig]
  · obtain ⟨imps, locals, refs, pre⟩ := fd
    dsimp only at hcomp hpre himps ⊢
    subst hcomp
    subst hpre
    have hen := loadAux_enter env env.files.length [] [] file
      ⟨imps, locals, [], []⟩ rfl (List.not_mem_nil file) hfd
    simp only [fileWorkItems, List.map_nil, List.append_assoc] at hen
    rw [loadItems_skip_ignored env _ file [file] imps _ _ _ _ _ himps,
      loadItems_locals, loadItems_nil] at hen
    dsimp only at hen
    refine ⟨finalize file [] (addLocalTokens [] locals) [],
      (file, finalize file [] (addLocalTokens [] locals) []) :: [], ?_, ?_, ?_⟩
    · rw [loadWith_eq, hen]
    · rfl
    · intro n
      rw [names_finalize, mem_names_addLocalTokens]
      simp

/-- C9, witness: the http(s) fixture. The `loadFile` part is instantiated
at the remote specifier; the loader part at file 1 of the fixture, whose
only references are the two remote imports. -/
theorem c9_witness :
    loadFile (fun s => s == "http://example.com/path/1.css") (fun f _ => f)
        (fun f _ => (⟨".a \x7b\x7d", f⟩, [f])) "http://example.com/path/1.css" "/test" =
      ({ contents := "", filename := "http://example.com/path/1.css" }, []) ∧
    ∃ r c, loadWith envHttp [] 1 = .ok (r, c, [1]) ∧
      r.dependencies = [] ∧
      ∀ n, n ∈ r.tokens.map Token.name ↔ n ∈ fdHttp.localTokens.map Prod.fst :=
  c9_ignored_specifier_short_circuit
    (fun s => s == "http://example.com/path/1.css") (fun f _ => f)
    (fun f _ => (⟨".a \x7b\x7d", f⟩, [f])) "http://example.com/path/1.css" "/test"
    envHttp 1 fdHttp rfl rfl rfl rfl (by decide)

/-! The cache-free loader: unfolding equations, fuel monotonicity, and
transfer lemmas (claim C5). -/

theorem pureItems_nil (env : Env) (loadF : Nat → Except LoadError LoadResult) (file : Nat)
    (acc : List Token) (deps : List Nat) :
    pureItems env loadF file [] acc deps = .ok (acc, deps) :=
  rfl

theorem pureItems_loc (env : Env) (loadF : Nat → Except LoadError LoadResult) (file : Nat)
    (n : String) (loc : Loc) (rest : List WorkItem) (acc : List Token) (deps : List Nat) :
    pureItems env loadF file (.locItem n loc :: rest) acc deps =
      pureItems env loadF file rest (addLocations acc n [loc]) deps :=
  rfl

theorem pureItems_imp (env : Env) (loadF : Nat → Except LoadError LoadResult) (file : Nat)
    (s : String) (rest : List WorkItem) (acc : List Token) (deps : List Nat) :
    pureItems env loadF file (.impItem s :: rest) acc deps =
      (match env.resolve s file with
      | .ignored => pureItems env loadF file rest acc deps
      | .unresolved => .error (.unresolvedImport s file)
      | .resolved g =>
        match loadF g with
        | .error e => .error e
        | .ok rg =>
          pureItems env loadF file rest (mergeTokens acc rg.tokens)
            (deps ++ g :: rg.dependencies)) :=
  rfl

theorem pureItems_comp (env : Env) (loadF : Nat → Except LoadError LoadResult) (file : Nat)
    (ref : ComposesRef) (rest : List WorkItem) (acc : List Token) (deps : List Nat) :
    pureItems env loadF file (.compItem ref :: rest) acc deps =
      (match ref.source with
      | .localSource => pureItems env loadF file rest acc deps
      | .fromFile s =>
        match env.resolve s file with
        | .unresolved => .error (.unresolvedComposesTarget s file)
        | .ignored => pureItems env loadF file rest acc deps
        | .resolved g =>
          match loadF g with
          | .error e => .error e
          | .ok rg =>
            pureItems env loadF file rest (applyComposedNames acc rg ref.tokenNames)
              (deps ++ g :: rg.dependencies)) := by
  cases ref with
  | mk tokenNames source => cases source <;> rfl

theorem pureLoad_zero (env : Env) (chain : List Nat) (file : Nat) :
    pureLoad env 0 chain file = .error .fuelExhausted :=
  rfl

theorem pureLoad_cyc (env : Env) (fuel : Nat) (chain : List Nat) (file : Nat)
    (hch : file ∈ chain) :
    pureLoad env (fuel + 1) chain file = .error (.cyclicComposition file chain) := by
  show (if file ∈ chain then _ else _) = _
  rw [if_pos hch]

theorem pureLoad_notFound (env : Env) (fuel : Nat) (chain : List Nat) (file : Nat)
    (hch : file ∉ chain) (hfd : assocFind env.files file = none) :
    pureLoad env (fuel + 1) chain file = .error (.notFound file) := by
  show (if file ∈ chain then _ else _) = _
  rw [if_neg hch, hfd]

theorem pureLoad_enter (env : Env) (fuel : Nat) (chain : List Nat) (file : Nat)
    (fd : FileData) (hch : file ∉ chain) (hfd : assocFind env.files file = some fd) :
    pureLoad env (fuel + 1) chain file =
      (match pureItems env (pureLoad env fuel (file :: chain)) file
          (fileWorkItems fd) [] [] with
      | .error e => .error e
      | .ok (acc, deps) => .ok (finalize file fd.preBundledDependencies acc deps)) := by
  show (if file ∈ chain then _ else _) = _
  rw [if_neg hch, hfd]

theorem pureItems_transfer (env : Env) (file : Nat)
    (F1 F2 : Nat → Except LoadError LoadResult) :
    ∀ (items : List WorkItem),
      (∀ g ∈ itemTargets env file items, ∀ r, F1 g = .ok r → F2 g = .ok r) →
      ∀ (acc : List Token) (deps : List Nat) (A : List Token) (D : List Nat),
        pureItems env F1 file items acc deps = .ok (A, D) →
        pureItems env F2 file items acc deps = .ok (A, D) := by
  intro items
  induction items with
  | nil => intro _ acc deps A D h; exact h
  | cons item rest ih =>
    intro hT acc deps A D h
    cases item with
    | locItem n loc =>
      rw [pureItems_loc] at h ⊢
      exact ih (fun g hg => hT g (by rw [itemTargets_loc]; exact hg)) _ _ _ _ h
    | impItem s =>
      rw [pureItems_imp] at h ⊢
      cases hr : env.resolve s file with
      | unresolved => rw [hr] at h; exact absurd h (by simp)
      | ignored =>
        rw [hr] at h
        dsimp only at h ⊢
        exact ih (fun g hg => hT g (by rw [itemTargets_imp, hr]; exact hg)) _ _ _ _ h
      | resolved g =>
        rw [hr] at h
        dsimp only at h ⊢
        cases hg1 : F1 g with
        | error e => rw [hg1] at h; exact absurd h (by simp)
        | ok rg =>
          rw [hg1] at h
          dsimp only at h
          rw [hT g (by rw [itemTargets_imp, hr]; exact List.mem_cons_self _ _) rg hg1]
          dsimp only
          exact ih (fun g2 hg2 => hT g2
            (by rw [itemTargets_imp, hr]; exact List.mem_cons_of_mem _ hg2)) _ _ _ _ h
    | compItem ref =>
      obtain ⟨tn, src⟩ := ref
      rw [pureItems_comp] at h ⊢
      cases src with
      | localSource =>
        dsimp only at h ⊢
        exact ih (fun g hg => hT g (by rw [itemTargets_comp]; exact hg)) _ _ _ _ h
      | fromFile s =>
        dsimp only at h ⊢
        cases hr : env.resolve s file with
        | unresolved => rw [hr] at h; exact absurd h (by simp)
        | ignored =>
          rw [hr] at h
          dsimp only at h ⊢
          exact ih (fun g hg => hT g
            (by rw [itemTargets_comp]; dsimp only; rw [hr]; exact hg)) _ _ _ _ h
        | resolved g =>
          rw [hr] at h
          dsimp only at h ⊢
          cases hg1 : F1 g with
          | error e => rw [hg1] at h; exact absurd h (by simp)
          | ok rg =>
            rw [hg1] at h
            dsimp only at h
            rw [hT g (by rw [itemTargets_comp]; dsimp only; rw [hr]; exact List.mem_cons_self _ _) rg hg1]
            dsimp only
            exact ih (fun g2 hg2 => hT g2
              (by rw [itemTargets_comp]; dsimp only; rw [hr]; exact List.mem_cons_of_mem _ hg2)) _ _ _ _ h

theorem pureLoad_mono (env : Env) :
    ∀ (fuel : Nat) (chain : List Nat) (f : Nat) (r : LoadResult),
      pureLoad env fuel chain f = .ok r → pureLoad env (fuel + 1) chain f = .ok r := by
  intro fuel
  induction fuel with
  | zero => intro chain f r h; exact absurd h (by simp [pureLoad])
  | succ fuel ih =>
    intro chain f r h
    by_cases hch : f ∈ chain
    · rw [pureLoad_cyc env fuel chain f hch] at h
      exact absurd h (by simp)
    · cases hfd : assocFind env.files f with
      | none =>
        rw [pureLoad_notFound env fuel chain f hch hfd] at h
        exact absurd h (by simp)
      | some fd =>
        rw [pureLoad_enter env fuel chain f fd hch hfd] at h
        rw [pureLoad_enter env (fuel + 1) chain f fd hch hfd]
        cases hpi : pureItems env (pureLoad env fuel (f :: chain)) f (fileWorkItems fd) [] [] with
        | error e => rw [hpi] at h; exact absurd h (by simp)
        | ok y =>
          obtain ⟨acc, deps⟩ := y
          rw [hpi] at h
          rw [pureItems_transfer env f (pureLoad env fuel (f :: chain))
            (pureLoad env (fuel + 1) (f :: chain)) (fileWorkItems fd)
            (fun g _ r2 h2 => ih (f :: chain) g r2 h2) [] [] acc deps hpi]
          exact h

theorem pureLoad_mono_le (env : Env) (fl fl' : Nat) (h : fl ≤ fl') (chain : List Nat)
    (f : Nat) (r : LoadResult) (hok : pureLoad env fl chain f = .ok r) :
    pureLoad env fl' chain f = .ok r := by
  induction h with
  | refl => exact hok
  | step _ ih => exact pureLoad_mono env _ chain f r ih

theorem pureItems_ok_targets (env : Env) (F : Nat → Except LoadError LoadResult) (file : Nat) :
    ∀ (items : List WorkItem) (acc : List Token) (deps : List Nat)
      (A : List Token) (D : List Nat),
      pureItems env F file items acc deps = .ok (A, D) →
      ∀ g ∈ itemTargets env file items, ∃ rg, F g = .ok rg := by
  intro items
  induction items with
  | nil => intro acc deps A D h g hg; simp [itemTargets] at hg
  | cons item rest ih =>
    intro acc deps A D h g hg
    cases item with
    | locItem n loc =>
      rw [pureItems_loc] at h
      rw [itemTargets_loc] at hg
      exact ih _ _ _ _ h g hg
    | impItem s =>
      rw [pureItems_imp] at h
      rw [itemTargets_imp] at hg
      cases hr : env.resolve s file with
      | unresolved => rw [hr] at h; exact absurd h (by simp)
      | ignored =>
        rw [hr] at h
        rw [hr] at hg
        exact ih _ _ _ _ h g hg
      | resolved g2 =>
        rw [hr] at h
        rw [hr] at hg
        dsimp only at h hg
        cases hg2 : F g2 with
        | error e => rw [hg2] at h; exact absurd h (by simp)
        | ok rg2 =>
          rw [hg2] at h
          dsimp only at h
          rcases List.mem_cons.mp hg with rfl | hg
          · exact ⟨rg2, hg2⟩
          · exact ih _ _ _ _ h g hg
    | compItem ref =>
      obtain ⟨tn, src⟩ := ref
      rw [pureItems_comp] at h
      rw [itemTargets_comp] at hg
      cases src with
      | localSource =>
        dsimp only at h hg
        exact ih _ _ _ _ h g hg
      | fromFile s =>
        dsimp only at h hg
        cases hr : env.resolve s file with
        | unresolved => rw [hr] at h; exact absurd h (by simp)
        | ignored =>
          rw [hr] at h
          rw [hr] at hg
          exact ih _ _ _ _ h g hg
        | resolved g2 =>
          rw [hr] at h
          rw [hr] at hg
          dsimp only at h hg
          cases hg2 : F g2 with
          | error e => rw [hg2] at h; exact absurd h (by simp)
          | ok rg2 =>
            rw [hg2] at h
            dsimp only at h
            rcases List.mem_cons.mp hg with rfl | hg
            · exact ⟨rg2, hg2⟩
            · exact ih _ _ _ _ h g hg

theorem pureLoad_ok_acyclic (env : Env) :
    ∀ (fuel : Nat) (chain : List Nat) (f : Nat) (r : LoadResult),
      pureLoad env fuel chain f = .ok r → ¬ CycleFrom env f := by
  intro fuel
  induction fuel with
  | zero => intro chain f r h; exact absurd h (by simp [pureLoad])
  | succ fuel ih =>
    intro chain f r h
    by_cases hch : f ∈ chain
    · rw [pureLoad_cyc env fuel chain f hch] at h
      exact absurd h (by simp)
    · cases hfd : assocFind env.files f with
      | none =>
        rw [pureLoad_notFound env fuel chain f hch hfd] at h
        exact absurd h (by simp)
      | some fd =>
        rw [pureLoad_enter env fuel chain f fd hch hfd] at h
        cases hpi : pureItems env (pureLoad env fuel (f :: chain)) f (fileWorkItems fd) [] [] with
        | error e => rw [hpi] at h; exact absurd h (by simp)
        | ok y =>
          obtain ⟨acc, deps⟩ := y
          have htargets' : ∀ t ∈ edgeTargets env f, ¬ CycleFrom env t := by
            intro t ht
            rw [edgeTargets, hfd] at ht
            obtain ⟨rt, hrt⟩ :=
              pureItems_ok_targets env (pureLoad env fuel (f :: chain)) f
                (fileWorkItems fd) [] [] acc deps hpi t ht
            exact ih (f :: chain) t rt hrt
          rintro ⟨x, w, hgx, hw, hwx⟩
          cases hgx with
          | refl => exact htargets' w hw ⟨f, w, hwx, hw, hwx⟩
          | step h1 h2 => exact htargets' _ h1 ⟨x, w, h2, hw, hwx⟩

theorem pureLoad_chain_transfer (env : Env) :
    ∀ (fuel : Nat) (ch₁ ch₂ : List Nat) (f : Nat) (r : LoadResult),
      pureLoad env fuel ch₁ f = .ok r →
      (∀ x, Reaches env f x → x ∉ ch₂) →
      pureLoad env fuel ch₂ f = .ok r := by
  intro fuel
  induction fuel with
  | zero => intro ch₁ ch₂ f r h _; exact absurd h (by simp [pureLoad])
  | succ fuel ih =>
    intro ch₁ ch₂ f r h hdis
    by_cases hch : f ∈ ch₁
    · rw [pureLoad_cyc env fuel ch₁ f hch] at h
      exact absurd h (by simp)
    · have hch2 : f ∉ ch₂ := hdis f (Reaches.refl f)
      cases hfd : assocFind env.files f with
      | none =>
        rw [pureLoad_notFound env fuel ch₁ f hch hfd] at h
        exact absurd h (by simp)
      | some fd =>
        rw [pureLoad_enter env fuel ch₁ f fd hch hfd] at h
        rw [pureLoad_enter env fuel ch₂ f fd hch2 hfd]
        cases hpi : pureItems env (pureLoad env fuel (f :: ch₁)) f (fileWorkItems fd) [] [] with
        | error e => rw [hpi] at h; exact absurd h (by simp)
        | ok y =>
          obtain ⟨acc, deps⟩ := y
          rw [hpi] at h
          have hT : ∀ g ∈ itemTargets env f (fileWorkItems fd), ∀ rg,
              pureLoad env fuel (f :: ch₁) g = .ok rg →
              pureLoad env fuel (f :: ch₂) g = .ok rg := by
            intro g hg rg hok
            have hgedge : g ∈ edgeTargets env f := by
              rw [edgeTargets, hfd]
              exact hg
            have hngc : ¬ CycleFrom env g := pureLoad_ok_acyclic env fuel (f :: ch₁) g rg hok
            refine ih (f :: ch₁) (f :: ch₂) g rg hok ?_
            intro x hx hxin
            rcases List.mem_cons.mp hxin with rfl | hxin
            · exact hngc ⟨x, g, hx, hgedge, hx⟩
            · exact hdis x (Reaches.step hgedge hx) hxin
          rw [pureItems_transfer env f (pureLoad env fuel (f :: ch₁))
            (pureLoad env fuel (f :: ch₂)) (fileWorkItems fd) hT [] [] acc deps hpi]
          exact h

theorem loadItems_pure_agree (env : Env)
    (loadF : Cache → List Nat → Nat → Except LoadError (LoadResult × Cache × List Nat))
    (file : Nat) (chain : List Nat)
    (hF : ∀ cache g r c' rd, PSound env cache → loadF cache chain g = .ok (r, c', rd) →
      (∃ fl0, ∀ fl, fl0 ≤ fl → pureLoad env fl [] g = .ok r) ∧ PSound env c') :
    ∀ (items : List WorkItem),
      (∀ t ∈ itemTargets env file items, t ∈ edgeTargets env file) →
      ∀ (acc : List Token) (deps reads : List Nat) (cache : Cache)
        (A : List Token) (D RD : List Nat) (C' : Cache),
        PSound env cache →
        loadItems env loadF file chain items acc deps reads cache = .ok (A, D, RD, C') →
        PSound env C' ∧
        ∃ fl0, ∀ fl, fl0 ≤ fl →
          pureItems env (pureLoad env fl [file]) file items acc deps = .ok (A, D) := by
  intro items
  induction items with
  | nil =>
    intro _ acc deps reads cache A D RD C' hps h
    rw [loadItems_nil] at h
    simp only [Except.ok.injEq, Prod.mk.injEq] at h
    obtain ⟨rfl, rfl, -, rfl⟩ := h
    exact ⟨hps, 0, fun fl _ => pureItems_nil env _ file acc deps⟩
  | cons item rest ih =>
    intro hsub acc deps reads cache A D RD C' hps h
    cases item with
    | locItem n loc =>
      rw [loadItems_loc] at h
      obtain ⟨hpsC, fl0, hrest⟩ :=
        ih (fun t ht => hsub t (by rw [itemTargets_loc]; exact ht)) _ _ _ _ _ _ _ _ hps h
      refine ⟨hpsC, fl0, fun fl hfl => ?_⟩
      rw [pureItems_loc]
      exact hrest fl hfl
    | impItem s =>
      rw [loadItems_imp] at h
      cases hr : env.resolve s file with
      | unresolved => rw [hr] at h; exact absurd h (by simp)
      | ignored =>
        rw [hr] at h
        obtain ⟨hpsC, fl0, hrest⟩ :=
          ih (fun t ht => hsub t (by rw [itemTargets_imp, hr]; exact ht)) _ _ _ _ _ _ _ _ hps h
        refine ⟨hpsC, fl0, fun fl hfl => ?_⟩
        rw [pureItems_imp, hr]
        exact hrest fl hfl
      | resolved g =>
        rw [hr] at h
        dsimp only at h
        cases hg : loadF cache chain g with
        | error e => rw [hg] at h; exact absurd h (by simp)
        | ok y =>
          obtain ⟨rg, cache2, rds2⟩ := y
          rw [hg] at h
          dsimp only at h
          obtain ⟨⟨flg, hcang⟩, hps2⟩ := hF cache g rg cache2 rds2 hps hg
          obtain ⟨hpsC, FL0, hrest⟩ :=
            ih (fun t ht => hsub t
              (by rw [itemTargets_imp, hr]; exact List.mem_cons_of_mem _ ht))
              _ _ _ _ _ _ _ _ hps2 h
          have hedge : g ∈ edgeTargets env file :=
            hsub g (by rw [itemTargets_imp, hr]; exact List.mem_cons_self _ _)
          refine ⟨hpsC, max flg FL0, fun fl hfl => ?_⟩
          have hflg : flg ≤ fl := le_trans (le_max_left _ _) hfl
          have hFL0 : FL0 ≤ fl := le_trans (le_max_right _ _) hfl
          have hpures : pureLoad env fl [file] g = .ok rg := by
            refine pureLoad_chain_transfer env fl [] [file] g rg (hcang fl hflg) ?_
            intro x hx hxin
            rcases List.mem_cons.mp hxin with rfl | hxin
            · exact pureLoad_ok_acyclic env fl [] g rg (hcang fl hflg) ⟨x, g, hx, hedge, hx⟩
            · simp at hxin
          rw [pureItems_imp, hr]
          dsimp only
          rw [hpures]
          exact hrest fl hFL0
    | compItem ref =>
      obtain ⟨tn, src⟩ := ref
      rw [loadItems_comp] at h
      cases src with
      | localSource =>
        dsimp only at h
        obtain ⟨hpsC, fl0, hrest⟩ :=
          ih (fun t ht => hsub t (by rw [itemTargets_comp]; exact ht)) _ _ _ _ _ _ _ _ hps h
        refine ⟨hpsC, fl0, fun fl hfl => ?_⟩
        rw [pureItems_comp]
        exact hrest fl hfl
      | fromFile s =>
        dsimp only at h
        cases hr : env.resolve s file with
        | unresolved => rw [hr] at h; exact absurd h (by simp)
        | ignored =>
          rw [hr] at h
          obtain ⟨hpsC, fl0, hrest⟩ :=
            ih (fun t ht => hsub t
              (by rw [itemTargets_comp]; dsimp only; rw [hr]; exact ht)) _ _ _ _ _ _ _ _ hps h
          refine ⟨hpsC, fl0, fun fl hfl => ?_⟩
          rw [pureItems_comp]
          dsimp only
          rw [hr]
          exact hrest fl hfl
        | resolved g =>
          rw [hr] at h
          dsimp only at h
          cases hg : loadF cache chain g with
          | error e => rw [hg] at h; exact absurd h (by simp)
          | ok y =>
            obtain ⟨rg, cache2, rds2⟩ := y
            rw [hg] at h
            dsimp only at h
            obtain ⟨⟨flg, hcang⟩, hps2⟩ := hF cache g rg cache2 rds2 hps hg
            obtain ⟨hpsC, FL0, hrest⟩ :=
              ih (fun t ht => hsub t
                (by rw [itemTargets_comp]; dsimp only; rw [hr]; exact List.mem_cons_of_mem _ ht))
                _ _ _ _ _ _ _ _ hps2 h
            have hedge : g ∈ edgeTargets env file :=
              hsub g (by rw [itemTargets_comp]; dsimp only; rw [hr]; exact List.mem_cons_self _ _)
            refine ⟨hpsC, max flg FL0, fun fl hfl => ?_⟩
            have hflg : flg ≤ fl := le_trans (le_max_left _ _) hfl
            have hFL0 : FL0 ≤ fl := le_trans (le_max_right _ _) hfl
            have hpures : pureLoad env fl [file] g = .ok rg := by
              refine pureLoad_chain_transfer env fl [] [file] g rg (hcang fl hflg) ?_
              intro x hx hxin
              rcases List.mem_cons.mp hxin with rfl | hxin
              · exact pureLoad_ok_acyclic env fl [] g rg (hcang fl hflg) ⟨x, g, hx, hedge, hx⟩
              · simp at hxin
            rw [pureItems_comp]
            dsimp only
            rw [hr]
            dsimp only
            rw [hpures]
            exact hrest fl hFL0

theorem loadAux_pure_agree (env : Env) :
    ∀ (fuel : Nat) (cache : Cache) (chain : List Nat) (f : Nat) (r : LoadResult)
      (c' : Cache) (rd : List Nat),
      PSound env cache →
      loadAux env fuel cache chain f = .ok (r, c', rd) →
      (∃ fl0, ∀ fl, fl0 ≤ fl → pureLoad env fl [] f = .ok r) ∧ PSound env c' := by
  intro fuel
  induction fuel with
  | zero =>
    intro cache chain f r c' rd _ h
    exact absurd h (by simp [loadAux])
  | succ fuel ih =>
    intro cache chain f r c' rd hps h
    cases hc : assocFind cache f with
    | some r0 =>
      rw [loadAux_hit env fuel cache chain f r0 hc] at h
      simp only [Except.ok.injEq, Prod.mk.injEq] at h
      obtain ⟨rfl, rfl, -⟩ := h
      exact ⟨hps f r0 hc, hps⟩
    | none =>
      by_cases hmem : f ∈ chain
      · rw [loadAux_cyc env fuel cache chain f hc hmem] at h
        exact absurd h (by simp)
      · cases hfd : assocFind env.files f with
        | none =>
          rw [loadAux_notFound env fuel cache chain f hc hmem hfd] at h
          exact absurd h (by simp)
        | some fd =>
          rw [loadAux_enter env fuel cache chain f fd hc hmem hfd] at h
          cases hli : loadItems env (loadAux env fuel) f (f :: chain)
              (fileWorkItems fd) [] [] [] cache with
          | error e => rw [hli] at h; exact absurd h (by simp)
          | ok y =>
            obtain ⟨acc, deps, rds, cache2⟩ := y
            rw [hli] at h
            dsimp only at h
            simp only [Except.ok.injEq, Prod.mk.injEq] at h
            obtain ⟨rfl, rfl, -⟩ := h
            obtain ⟨hpsC2, FL0, hpure⟩ :=
              loadItems_pure_agree env (loadAux env fuel) f (f :: chain)
                (fun cache3 g3 r3 c3 rd3 hp3 h3 =>
                  ih cache3 (f :: chain) g3 r3 c3 rd3 hp3 h3)
                (fileWorkItems fd)
                (fun t ht => by rw [edgeTargets, hfd]; exact ht)
                [] [] [] cache acc deps rds cache2 hps hli
            have hcanon : ∀ fl, FL0 + 1 ≤ fl →
                pureLoad env fl [] f = .ok (finalize f fd.preBundledDependencies acc deps) := by
              intro fl hfl
              obtain ⟨k, rfl⟩ : ∃ k, fl = k + 1 := ⟨fl - 1, by omega⟩
              have hk : FL0 ≤ k := by omega
              rw [pureLoad_enter env k [] f fd (List.not_mem_nil f) hfd]
              rw [hpure k hk]
            refine ⟨⟨FL0 + 1, hcanon⟩, ?_⟩
            intro g2 r2 h2
            by_cases hgg : f = g2
            · subst hgg
              rw [assocFind_cons_self] at h2
              simp only [Option.some.injEq] at h2
              subst h2
              exact ⟨FL0 + 1, hcanon⟩
            · rw [assocFind_cons_ne f _ cache2 g2 hgg] at h2
              exact hpsC2 g2 r2 h2

/-- C5: the returned `LoadResult` is deterministic with respect to I/O
timing. Different completion orders of concurrent sibling loads manifest,
at the moment a given file is loaded, only as different (sound) states of
the shared cache; for any two sound cache states, successful top-level
loads of the same file return the same result — token order, location
order and dependencies included — because the merge consumes results in
declaration order and every cached value equals the file's canonical
cache-free denotation. -/
theorem c5_deterministic_result (env : Env) (f : Nat) (c₁ c₂ : Cache)
    (r₁ r₂ : LoadResult) (cc₁ cc₂ : Cache) (rd₁ rd₂ : List Nat)
    (h₁ : PSound env c₁) (h₂ : PSound env c₂)
    (e₁ : loadWith env c₁ f = .ok (r₁, cc₁, rd₁))
    (e₂ : loadWith env c₂ f = .ok (r₂, cc₂, rd₂)) :
    r₁ = r₂ := by
  rw [loadWith_eq] at e₁ e₂
  obtain ⟨⟨fl₁, hp₁⟩, -⟩ :=
    loadAux_pure_agree env (env.files.length + 1) c₁ [] f r₁ cc₁ rd₁ h₁ e₁
  obtain ⟨⟨fl₂, hp₂⟩, -⟩ :=
    loadAux_pure_agree env (env.files.length + 1) c₂ [] f r₂ cc₂ rd₂ h₂ e₂
  have hq₁ := hp₁ (max fl₁ fl₂) (le_max_left _ _)
  have hq₂ := hp₂ (max fl₁ fl₂) (le_max_right _ _)
  rw [hq₁] at hq₂
  simp only [Except.ok.injEq] at hq₂
  exact hq₂

/-- C5, witness: loading file 1 of the composes fixture against an empty
cache and against a cache in which a sibling already completed file 2
yields the same `LoadResult`. -/
theorem c5_witness :
    ∃ r₂ cc₂ rd₂,
      loadWith envC1 [(2, ⟨[⟨"b", [locB2]⟩], []⟩)] 1 = .ok (r₂, cc₂, rd₂) ∧ r₂ = resC1 := by
  refine ⟨_, _, _, rfl, ?_⟩
  refine c5_deterministic_result envC1 1 [(2, ⟨[⟨"b", [locB2]⟩], []⟩)] [] _ resC1 _ _ _ _
    ?_ ?_ rfl rfl
  · intro g r h
    by_cases hg : 2 = g
    · subst hg
      rw [assocFind_cons_self] at h
      simp only [Option.some.injEq] at h
      subst h
      refine ⟨1, fun fl hfl => ?_⟩
      obtain ⟨k, rfl⟩ : ∃ k, fl = k + 1 := ⟨fl - 1, by omega⟩
      rfl
    · rw [assocFind_cons_ne 2 _ [] g hg] at h
      exact absurd h (by simp [assocFind])
  · intro g r h
    exact absurd h (by simp [assocFind])

/-- C10: `getRelativePath` returns `toFilePath` relative to
`fromFilePath`'s directory, prefixed with `./` whenever that relative path
does not already start with `..`; consequently the result always begins
with `./` or `..`. The three concrete cases are those of the in-repo test
`getRelativePath`. -/
theorem c10_getRelativePath :
    (∀ fromPath toPath : String,
      getRelativePath fromPath toPath =
        (if jsStartsWith (relative (dirname fromPath) toPath) ".." then
          relative (dirname fromPath) toPath
        else "./" ++ relative (dirname fromPath) toPath) ∧
      (jsStartsWith (getRelativePath fromPath toPath) "./" = true ∨
        jsStartsWith (getRelativePath fromPath toPath) ".." = true)) ∧
    getRelativePath "/test/1.css.d.ts" "/test/1.css" = "./1.css" ∧
    getRelativePath "/test/1.css.d.ts" "/test/dir/1.css" = "./dir/1.css" ∧
    getRelativePath "/test/1.css.d.ts" "/1.css" = "../1.css" := by
  refine ⟨fun fromPath toPath => ⟨rfl, ?_⟩, rfl, rfl, rfl⟩
  unfold getRelativePath
  cases hb : jsStartsWith (relative (dirname fromPath) toPath) ".."
  · left
    rw [if_neg (show ¬ (false = true) by decide)]
    generalize relative (dirname fromPath) toPath = r
    cases r with
    | mk rd =>
      show charsStartWith (("./" ++ String.mk rd).data) "./".data = true
      rw [String.data_append, show "./".data = ['.', '/'] from rfl]
      simp [charsStartWith]
  · right
    rw [if_pos (rfl : true = true)]
    exact hb

end Acm
